import Mathlib

/-!
Verification of the `bimap` repository: a bidirectional map built from two
treaps (`src/unnamed/part_000`, namespace `bimap_details`) sharing dual-key
nodes, with a facade (`src/include/bimap.h`).

The embedding models the pointer structure reachable from a treap's
`head_node.left` as an inductive binary tree whose payload carries the keys
and the per-side random priorities of one dual-key `node` allocation.
The C++ `rand()` draws are modelled as explicit priority arguments at each
allocation site.  Comparators are modelled as explicit `Bool`-valued `less`
functions, as in the templates.  End iterators (`iterator(&head_node)`) are
modelled as `none`; a non-end iterator is the node it designates.
-/

set_option maxHeartbeats 1000000

namespace BimapSpec

/-- The tree shape hanging off `treap_head_node::left`.  `γ` is the payload:
for the facade it is a dual-key node carrying both keys and both priorities. -/
inductive Tree (γ : Type) where
  | leaf
  | node (l : Tree γ) (v : γ) (r : Tree γ)
deriving Repr, DecidableEq

namespace Tree

/-- In-order traversal: the sequence `begin() .. end()` visits, as produced by
`treap::iterator::operator++` (symmetric-order successor via parent links). -/
def inorder : Tree γ → List γ
  | .leaf => []
  | .node l v r => l.inorder ++ v :: r.inorder

/-- Number of nodes reachable from the root. -/
def count (t : Tree γ) : Nat := t.inorder.length

/-- `head_node.left == nullptr`: the tree is empty. -/
def isLeaf : Tree γ → Bool
  | .leaf => true
  | .node _ _ _ => false

end Tree

section TreapOps

variable {γ κ : Type} (key : γ → κ) (prio : γ → Nat) (less : κ → κ → Bool)

open Tree

/-- `treap::split(root, key)`: partition into keys `< key` and keys `>= key`
(`comparator(root->key, key)` decides the side). -/
def split : Tree γ → κ → Tree γ × Tree γ
  | .leaf, _ => (.leaf, .leaf)
  | .node l v r, k =>
    if less (key v) k then
      let p := split r k
      (.node l v p.1, p.2)
    else
      let p := split l k
      (p.1, .node p.2 v r)

/-- `treap::merge(t1, t2)`: combine two trees, the root with the larger
`random_key` wins (`t1->random_key > t2->random_key`). -/
def merge : Tree γ → Tree γ → Tree γ
  | .leaf, t2 => t2
  | t1, .leaf => t1
  | .node l1 v1 r1, .node l2 v2 r2 =>
    if prio v1 > prio v2 then
      .node l1 v1 (merge r1 (.node l2 v2 r2))
    else
      .node (merge (.node l1 v1 r1) l2) v2 r2

/-- `treap::insert(node)`: split at the node's key, merge left part with the
node, merge with the right part.  The returned iterator is the node itself. -/
def insertT (t : Tree γ) (v : γ) : Tree γ :=
  let p := split key less t (key v)
  merge prio (merge prio p.1 (.node .leaf v .leaf)) p.2

/-- `treap::exist(key)`: iterative BST descent; `none` models
`iterator(&head_node)`, i.e. the end iterator. -/
def exist : Tree γ → κ → Option γ
  | .leaf, _ => none
  | .node l v r, k =>
    if less (key v) k then exist r k
    else if less k (key v) then exist l k
    else some v

/-- Leftmost payload (the `while (p->left) p = p->left;` walk), `none` on an
empty tree. -/
def leftmost : Tree γ → Option γ
  | .leaf => none
  | .node .leaf v _ => some v
  | .node (.node a w b) _ _ => leftmost (.node a w b)

/-- Payload at the root, `none` on an empty tree. -/
def rootVal : Tree γ → Option γ
  | .leaf => none
  | .node _ v _ => some v

/-- Core of `treap::remove` on the nonempty right split part `node l v r`:
walk to the leftmost node and splice it out
(`removed_node->parent->left = removed_node->right`).  Returns the removed
payload, the remaining tree, and the `next` value the code computes: the
removed node's right child if present, else its parent (`none` when the
removed node is the root of the part and has no right child). -/
def splice : Tree γ → γ → Tree γ → γ × Tree γ × Option γ
  | .leaf, v, r => (v, r, rootVal r)
  | .node a w b, v, r =>
    let s := splice a w b
    (s.1, .node s.2.1 v r, some (s.2.2.getD v))

/-- `treap::remove(key)`.  Outer `none` models the null-pointer dereference of
`removed_node->left` when the right split part is empty (every stored key is
`< key`).  When the leftmost key of the right part does not compare equal to
`key`, the code returns `iterator(&head_node)` (end) WITHOUT merging the two
split parts back: `head_node.left` still holds the original root pointer, so
the tree reachable from the head is the split part containing the original
root (the left part iff `comparator(root->key, key)`).  Otherwise it splices
the node out and merges the parts back. -/
def removeT (t : Tree γ) (k : κ) : Option (Option γ × Tree γ) :=
  let p := split key less t k
  match p.2 with
  | .leaf => none
  | .node a m b =>
    let s := splice a m b
    if less (key s.1) k || less k (key s.1) then
      some (none,
        match t with
        | .leaf => .leaf
        | .node _ rv _ => if less (key rv) k then p.1 else Tree.node a m b)
    else
      some (s.2.2, merge prio p.1 s.2.1)

/-- `treap::lower_bound(key)`: split at `key`, the leftmost node of the right
part is the answer (`none` = end), then merge the parts back (the head is
reattached, so the resulting tree is also returned). -/
def lower_bound (t : Tree γ) (k : κ) : Option γ × Tree γ :=
  let p := split key less t k
  (leftmost p.2, merge prio p.1 p.2)

/-- Leftmost-with-parent walk used by `treap::upper_bound`: descends the left
spine of `node l v _` tracking the parent pointer (`none` for the part's
root, whose parent field was zeroed by `split` unless it is the original
root, which still points at the head node). -/
def leftmostP : Tree γ → γ → Option γ → γ × Option γ
  | .leaf, v, par => (v, par)
  | .node a w _, v, _ => leftmostP a w (some v)

/-- `treap::upper_bound(key)`: split, walk to the leftmost node of the right
part; if its key compares equal to `key`, move to its parent if it has one
(for the part's root this is the head node — i.e. end — exactly when the
part's root is the original root, `!comparator(root->key, key)`), else to its
right CHILD if it has one, else stay put; finally merge the parts back. -/
def upper_bound (t : Tree γ) (k : κ) : Option γ × Tree γ :=
  let p := split key less t k
  let t' := merge prio p.1 p.2
  match p.2 with
  | .leaf => (none, t')
  | .node a m b =>
    let lp := leftmostP a m none
    if !less (key lp.1) k && !less k (key lp.1) then
      match lp.2 with
      | some par => (some par, t')
      | none =>
        match t with
        | .leaf => (none, t')
        | .node _ rv _ =>
          if !less (key rv) k then
            (none, t')
          else
            match b with
            | .leaf => (some m, t')
            | .node _ c _ => (some c, t')
    else (some lp.1, t')

/-- `p` holds at every node of the tree. -/
def allT (p : γ → Bool) : Tree γ → Bool
  | .leaf => true
  | .node l v r => p v && allT p l && allT p r

/-- Strict binary-search-tree property under the supplied comparator: every
key in the left subtree is `less` than the root key, every key in the right
subtree is greater, recursively. -/
def bst : Tree γ → Bool
  | .leaf => true
  | .node l v r =>
    allT (fun x => less (key x) (key v)) l &&
    allT (fun x => less (key v) (key x)) r &&
    bst l && bst r

/-- Max-heap property on the random priorities: no node has a priority larger
than its parent's. -/
def heapOk : Tree γ → Bool
  | .leaf => true
  | .node l v r =>
    allT (fun x => decide (prio x ≤ prio v)) l &&
    allT (fun x => decide (prio x ≤ prio v)) r &&
    heapOk l && heapOk r

end TreapOps

/-- Lawfulness of a caller-supplied comparator, as instantiated throughout the
repository (`std::less` on totally ordered key types): irreflexive,
transitive, and the induced equivalence `!(a<b) && !(b<a)` is equality. -/
structure LawfulLess {κ : Type} (less : κ → κ → Bool) : Prop where
  irrefl : ∀ a, less a a = false
  lt_trans : ∀ a b c, less a b = true → less b c = true → less a c = true
  conn : ∀ a b, less a b = false → less b a = false → a = b

/-- The standard `std::less<T>` instantiation on `Nat`, used for witnesses. -/
def natLt : Nat → Nat → Bool := fun a b => decide (a < b)

theorem lawful_natLt : LawfulLess natLt := by
  constructor
  · intro a; simp [natLt]
  · intro a b c h1 h2; simp_all [natLt]; omega
  · intro a b h1 h2; simp_all [natLt]; omega

section TreapLemmas

variable {γ κ : Type} (key : γ → κ) (prio : γ → Nat) (less : κ → κ → Bool)

theorem inorder_node (l : Tree γ) (v : γ) (r : Tree γ) :
    (Tree.node l v r).inorder = l.inorder ++ v :: r.inorder := rfl

theorem inorder_ne_nil (l : Tree γ) (v : γ) (r : Tree γ) :
    (Tree.node l v r).inorder ≠ [] := by
  simp [Tree.inorder]

theorem inorder_merge (t1 t2 : Tree γ) :
    (merge prio t1 t2).inorder = t1.inorder ++ t2.inorder := by
  induction t1, t2 using merge.induct prio with
  | case1 => simp [merge, Tree.inorder]
  | case2 => simp [merge, Tree.inorder]
  | case3 l1 v1 r1 l2 v2 r2 h ih =>
    rw [merge, if_pos h, inorder_node, inorder_node, ih]
    simp [Tree.inorder]
  | case4 l1 v1 r1 l2 v2 r2 h ih =>
    rw [merge, if_neg h, inorder_node, inorder_node, ih]
    simp [Tree.inorder]

theorem inorder_split (k : κ) (t : Tree γ) :
    (split key less t k).1.inorder ++ (split key less t k).2.inorder
      = t.inorder := by
  induction t with
  | leaf => simp [split, Tree.inorder]
  | node l v r ihl ihr =>
    by_cases h : less (key v) k
    · simp only [split, h, if_true, Tree.inorder]
      rw [← ihr]
      simp
    · simp only [split, h, if_false, Tree.inorder]
      rw [← ihl]
      simp

theorem allT_iff (p : γ → Bool) (t : Tree γ) :
    allT p t = true ↔ ∀ x ∈ t.inorder, p x = true := by
  induction t with
  | leaf => simp [allT, Tree.inorder]
  | node l v r ihl ihr =>
    simp only [allT, Tree.inorder, Bool.and_eq_true, ihl, ihr,
      List.mem_append, List.mem_cons]
    constructor
    · rintro ⟨⟨hv, hl⟩, hr⟩ x hx
      rcases hx with hx | rfl | hx
      · exact hl x hx
      · exact hv
      · exact hr x hx
    · intro h
      exact ⟨⟨h v (by simp), fun x hx => h x (by simp [hx])⟩,
             fun x hx => h x (by simp [hx])⟩

theorem leftmost_eq_head (t : Tree γ) : leftmost t = t.inorder.head? := by
  induction t with
  | leaf => rfl
  | node l v r ihl ihr =>
    cases l with
    | leaf => simp [leftmost, Tree.inorder]
    | node a w b =>
      rw [leftmost, ihl]
      show _ = ((Tree.node a w b).inorder ++ v :: r.inorder).head?
      cases h : (Tree.node a w b).inorder with
      | nil => exact absurd h (inorder_ne_nil a w b)
      | cons x xs => simp [h]

theorem split_node (l : Tree γ) (v : γ) (r : Tree γ) (k : κ) :
    split key less (Tree.node l v r) k =
      if less (key v) k then
        (Tree.node l v (split key less r k).1, (split key less r k).2)
      else
        ((split key less l k).1, Tree.node (split key less l k).2 v r) := by
  rw [split]

theorem bst_node_iff (l : Tree γ) (v : γ) (r : Tree γ) :
    bst key less (Tree.node l v r) = true ↔
      allT (fun x => less (key x) (key v)) l = true ∧
      allT (fun x => less (key v) (key x)) r = true ∧
      bst key less l = true ∧ bst key less r = true := by
  simp [bst, Bool.and_eq_true, and_assoc]

theorem heap_node_iff (l : Tree γ) (v : γ) (r : Tree γ) :
    heapOk prio (Tree.node l v r) = true ↔
      allT (fun x => decide (prio x ≤ prio v)) l = true ∧
      allT (fun x => decide (prio x ≤ prio v)) r = true ∧
      heapOk prio l = true ∧ heapOk prio r = true := by
  simp [heapOk, Bool.and_eq_true, and_assoc]

theorem heap_root_le (l : Tree γ) (v : γ) (r : Tree γ)
    (hh : heapOk prio (Tree.node l v r) = true) :
    ∀ x ∈ (Tree.node l v r).inorder, prio x ≤ prio v := by
  rw [heap_node_iff] at hh
  obtain ⟨h1, h2, _, _⟩ := hh
  rw [allT_iff] at h1 h2
  intro x hx
  rw [inorder_node, List.mem_append, List.mem_cons] at hx
  rcases hx with hx | rfl | hx
  · simpa using h1 x hx
  · exact le_refl _
  · simpa using h2 x hx

theorem allT_merge (p : γ → Bool) (t1 t2 : Tree γ)
    (h1 : allT p t1 = true) (h2 : allT p t2 = true) :
    allT p (merge prio t1 t2) = true := by
  rw [allT_iff] at h1 h2 ⊢
  intro x hx
  rw [inorder_merge] at hx
  rcases List.mem_append.1 hx with hx | hx
  · exact h1 x hx
  · exact h2 x hx

theorem allT_split (p : γ → Bool) (k : κ) (t : Tree γ) (h : allT p t = true) :
    allT p (split key less t k).1 = true ∧
    allT p (split key less t k).2 = true := by
  rw [allT_iff] at h ⊢
  rw [allT_iff]
  constructor <;> intro x hx <;> apply h <;>
    rw [← inorder_split key less k t] <;> simp [hx]

theorem bst_split (k : κ) (t : Tree γ) (hb : bst key less t = true) :
    bst key less (split key less t k).1 = true ∧
    bst key less (split key less t k).2 = true := by
  induction t with
  | leaf => simp [split, bst]
  | node l v r ihl ihr =>
    rw [bst_node_iff] at hb
    obtain ⟨hal, har, hl, hr⟩ := hb
    by_cases h : less (key v) k
    · obtain ⟨s1, s2⟩ := ihr hr
      simp only [split_node, if_pos h]
      constructor
      · rw [bst_node_iff]
        exact ⟨hal, (allT_split key less _ k r har).1, hl, s1⟩
      · exact s2
    · obtain ⟨s1, s2⟩ := ihl hl
      simp only [split_node, if_neg h]
      constructor
      · exact s1
      · rw [bst_node_iff]
        exact ⟨(allT_split key less _ k l hal).2, har, s2, hr⟩

theorem heap_split (k : κ) (t : Tree γ) (hh : heapOk prio t = true) :
    heapOk prio (split key less t k).1 = true ∧
    heapOk prio (split key less t k).2 = true := by
  induction t with
  | leaf => simp [split, heapOk]
  | node l v r ihl ihr =>
    rw [heap_node_iff] at hh
    obtain ⟨hal, har, hl, hr⟩ := hh
    by_cases h : less (key v) k
    · obtain ⟨s1, s2⟩ := ihr hr
      simp only [split_node, if_pos h]
      refine ⟨?_, s2⟩
      rw [heap_node_iff]
      exact ⟨hal, (allT_split key less _ k r har).1, hl, s1⟩
    · obtain ⟨s1, s2⟩ := ihl hl
      simp only [split_node, if_neg h]
      refine ⟨s1, ?_⟩
      rw [heap_node_iff]
      exact ⟨(allT_split key less _ k l hal).2, har, s2, hr⟩

theorem bst_merge (t1 t2 : Tree γ)
    (h1 : bst key less t1 = true) (h2 : bst key less t2 = true)
    (hsep : ∀ x ∈ t1.inorder, ∀ y ∈ t2.inorder, less (key x) (key y) = true) :
    bst key less (merge prio t1 t2) = true := by
  induction t1, t2 using merge.induct prio with
  | case1 => simpa [merge] using h2
  | case2 => simpa [merge] using h1
  | case3 l1 v1 r1 l2 v2 r2 h ih =>
    rw [merge, if_pos h]
    rw [bst_node_iff] at h1 ⊢
    obtain ⟨hal, har, hl, hr⟩ := h1
    refine ⟨hal, ?_, hl, ?_⟩
    · apply allT_merge
      · exact har
      · rw [allT_iff]
        intro y hy
        exact hsep v1 (by simp [inorder_node]) y hy
    · apply ih hr h2
      intro x hx y hy
      exact hsep x (by simp [inorder_node, hx]) y hy
  | case4 l1 v1 r1 l2 v2 r2 h ih =>
    rw [merge, if_neg h]
    rw [bst_node_iff] at h2 ⊢
    obtain ⟨hal, har, hl, hr⟩ := h2
    refine ⟨?_, har, ?_, hr⟩
    · apply allT_merge
      · rw [allT_iff]
        intro x hx
        exact hsep x hx v2 (by simp [inorder_node])
      · exact hal
    · apply ih h1 hl
      intro x hx y hy
      exact hsep x hx y (by simp [inorder_node, hy])

theorem heap_merge (t1 t2 : Tree γ)
    (h1 : heapOk prio t1 = true) (h2 : heapOk prio t2 = true) :
    heapOk prio (merge prio t1 t2) = true := by
  induction t1, t2 using merge.induct prio with
  | case1 => simpa [merge] using h2
  | case2 => simpa [merge] using h1
  | case3 l1 v1 r1 l2 v2 r2 h ih =>
    rw [merge, if_pos h]
    rw [heap_node_iff] at h1 ⊢
    obtain ⟨hal, har, hl, hr⟩ := h1
    refine ⟨hal, ?_, hl, ih hr h2⟩
    rw [allT_iff]
    intro x hx
    rw [inorder_merge] at hx
    rcases List.mem_append.1 hx with hx | hx
    · rw [allT_iff] at har
      exact har x hx
    · have := heap_root_le prio l2 v2 r2 h2 x hx
      simp only [decide_eq_true_eq]
      omega
  | case4 l1 v1 r1 l2 v2 r2 h ih =>
    rw [merge, if_neg h]
    rw [heap_node_iff] at h2 ⊢
    obtain ⟨hal, har, hl, hr⟩ := h2
    refine ⟨?_, har, ih h1 hl, hr⟩
    rw [allT_iff]
    intro x hx
    rw [inorder_merge] at hx
    rcases List.mem_append.1 hx with hx | hx
    · have := heap_root_le prio l1 v1 r1 h1 x hx
      simp only [decide_eq_true_eq]
      omega
    · rw [allT_iff] at hal
      exact hal x hx

/-- Under the BST invariant, `split` partitions the in-order sequence exactly
into the keys `< k` and the keys `>= k`. -/
theorem split_filter (L : LawfulLess less) (k : κ) (t : Tree γ)
    (hb : bst key less t = true) :
    (split key less t k).1.inorder
        = t.inorder.filter (fun x => less (key x) k) ∧
    (split key less t k).2.inorder
        = t.inorder.filter (fun x => !less (key x) k) := by
  induction t with
  | leaf => simp [split, Tree.inorder]
  | node l v r ihl ihr =>
    rw [bst_node_iff] at hb
    obtain ⟨hal, har, hl, hr⟩ := hb
    rw [allT_iff] at hal har
    by_cases h : less (key v) k
    · obtain ⟨e1, e2⟩ := ihr hr
      have hfl : l.inorder.filter (fun x => less (key x) k) = l.inorder :=
        List.filter_eq_self.mpr fun x hx => L.lt_trans _ _ _ (hal x hx) h
      have hfl2 : l.inorder.filter (fun x => !less (key x) k) = [] := by
        rw [List.filter_eq_nil_iff]
        intro x hx
        simp [L.lt_trans _ _ _ (hal x hx) h]
      simp only [split_node, if_pos h]
      constructor
      · rw [inorder_node, inorder_node, e1, List.filter_append, hfl]
        simp [h]
      · rw [inorder_node, e2, List.filter_append, hfl2]
        simp [h]
    · obtain ⟨e1, e2⟩ := ihl hl
      have hge : ∀ x ∈ r.inorder, less (key x) k = false := by
        intro x hx
        cases hc : less (key x) k
        · rfl
        · exact absurd (L.lt_trans _ _ _ (har x hx) hc) (by simp [h])
      have hfr : r.inorder.filter (fun x => less (key x) k) = [] := by
        rw [List.filter_eq_nil_iff]
        intro x hx
        simp [hge x hx]
      have hfr2 : r.inorder.filter (fun x => !less (key x) k) = r.inorder :=
        List.filter_eq_self.mpr fun x hx => by simp [hge x hx]
      simp only [split_node, if_neg h]
      constructor
      · rw [inorder_node, e1, List.filter_append]
        simp [h, hfr]
      · rw [inorder_node, inorder_node, e2, List.filter_append]
        simp [h, hfr2]

/-- The in-order sequence of a BST is strictly increasing: every earlier key
is `less` than every later one. -/
theorem bst_pairwise (L : LawfulLess less) (t : Tree γ)
    (hb : bst key less t = true) :
    t.inorder.Pairwise (fun x y => less (key x) (key y) = true) := by
  induction t with
  | leaf => simp [Tree.inorder]
  | node l v r ihl ihr =>
    rw [bst_node_iff] at hb
    obtain ⟨hal, har, hl, hr⟩ := hb
    rw [allT_iff] at hal har
    rw [inorder_node, List.pairwise_append]
    refine ⟨ihl hl, ?_, ?_⟩
    · rw [List.pairwise_cons]
      exact ⟨fun y hy => har y hy, ihr hr⟩
    · intro a ha b hb
      rcases List.mem_cons.1 hb with rfl | hb
      · exact hal a ha
      · exact L.lt_trans _ _ _ (hal a ha) (har b hb)

/-- In a BST two stored payloads with comparator-equal keys coincide. -/
theorem bst_key_inj (L : LawfulLess less) (t : Tree γ)
    (hb : bst key less t = true) :
    ∀ x ∈ t.inorder, ∀ y ∈ t.inorder, key x = key y → x = y := by
  intro x hx y hy hk
  by_contra hne
  have hp : t.inorder.Pairwise (fun a b : γ => key a ≠ key b) := by
    refine (bst_pairwise key less L t hb).imp ?_
    intro a b hab he
    replace hab : less (key a) (key b) = true := hab
    rw [he] at hab
    exact absurd hab (by simp [L.irrefl])
  have hsym : Symmetric (fun a b : γ => key a ≠ key b) :=
    fun a b hab he => hab he.symm
  exact (hp.forall hsym hx hy hne) hk

/-- `exist` never invents a payload: a `some` answer is a stored node whose
key compares equal to the query. -/
theorem exist_some (L : LawfulLess less) (t : Tree γ) (k : κ) (v : γ)
    (hb : bst key less t = true)
    (h : exist key less t k = some v) : v ∈ t.inorder ∧ key v = k := by
  induction t with
  | leaf => simp [exist] at h
  | node l v' r ihl ihr =>
    rw [bst_node_iff] at hb
    obtain ⟨hal, har, hl, hr⟩ := hb
    rw [exist] at h
    by_cases h1 : less (key v') k
    · rw [if_pos h1] at h
      obtain ⟨hm, hk⟩ := ihr hr h
      exact ⟨by simp [inorder_node, hm], hk⟩
    · rw [if_neg h1] at h
      by_cases h2 : less k (key v')
      · rw [if_pos h2] at h
        obtain ⟨hm, hk⟩ := ihl hl h
        exact ⟨by simp [inorder_node, hm], hk⟩
      · rw [if_neg h2] at h
        cases h
        refine ⟨by simp [inorder_node], ?_⟩
        exact (L.conn _ _ (by simpa using h2) (by simpa using h1)).symm

/-- `exist` finds every stored key: it answers `none` (the end iterator)
exactly when no stored key compares equal to the query — here, with a lawful
comparator, exactly when the query key is not stored. -/
theorem exist_none_iff (L : LawfulLess less) (t : Tree γ) (k : κ)
    (hb : bst key less t = true) :
    exist key less t k = none ↔ ∀ v ∈ t.inorder, key v ≠ k := by
  constructor
  · intro h v hv hk
    induction t with
    | leaf => simp [Tree.inorder] at hv
    | node l v' r ihl ihr =>
      rw [bst_node_iff] at hb
      obtain ⟨hal, har, hl, hr⟩ := hb
      rw [allT_iff] at hal har
      rw [exist] at h
      rw [inorder_node, List.mem_append, List.mem_cons] at hv
      by_cases h1 : less (key v') k
      · rw [if_pos h1] at h
        rcases hv with hv | rfl | hv
        · have h3 : less k (key v') = true := by
            rw [← hk]
            exact hal v hv
          exact absurd (L.lt_trans _ _ _ h3 h1) (by simp [L.irrefl k])
        · exact absurd h1 (by rw [hk]; simp [L.irrefl k])
        · exact ihr hr h hv
      · rw [if_neg h1] at h
        by_cases h2 : less k (key v')
        · rw [if_pos h2] at h
          rcases hv with hv | rfl | hv
          · exact ihl hl h hv
          · exact absurd h2 (by rw [hk]; simp [L.irrefl k])
          · refine h1 ?_
            rw [← hk]
            exact har v hv
        · rw [if_neg h2] at h
          cases h
  · intro h
    cases he : exist key less t k with
    | none => rfl
    | some v =>
      obtain ⟨hm, hk⟩ := exist_some key less L t k v hb he
      exact absurd hk (h v hm)

theorem lawful_asym (L : LawfulLess less) (a b : κ) (h : less a b = true) :
    less b a = false := by
  cases hc : less b a
  · rfl
  · exact absurd (L.lt_trans _ _ _ h hc) (by simp [L.irrefl])

theorem head?_append_of_ne_nil (l1 l2 : List γ) (h : l1 ≠ []) :
    (l1 ++ l2).head? = l1.head? := by
  cases l1 with
  | nil => exact absurd rfl h
  | cons x xs => simp

theorem tail_append_of_ne_nil (l1 l2 : List γ) (h : l1 ≠ []) :
    (l1 ++ l2).tail = l1.tail ++ l2 := by
  cases l1 with
  | nil => exact absurd rfl h
  | cons x xs => simp

theorem inorder_merge_split (k : κ) (t : Tree γ) :
    (merge prio (split key less t k).1 (split key less t k).2).inorder
      = t.inorder := by
  rw [inorder_merge, inorder_split]

theorem bst_merge_split (L : LawfulLess less) (k : κ) (t : Tree γ)
    (hb : bst key less t = true) :
    bst key less (merge prio (split key less t k).1 (split key less t k).2)
      = true := by
  obtain ⟨s1, s2⟩ := bst_split key less k t hb
  obtain ⟨e1, e2⟩ := split_filter key less L k t hb
  apply bst_merge key prio less _ _ s1 s2
  intro x hx y hy
  rw [e1, List.mem_filter] at hx
  rw [e2, List.mem_filter] at hy
  obtain ⟨-, hx2⟩ := hx
  obtain ⟨-, hy2⟩ := hy
  simp only [Bool.not_eq_true'] at hy2
  cases hc : less k (key y)
  · have hke : key y = k := L.conn _ _ hy2 hc
    rw [hke]
    exact hx2
  · exact L.lt_trans _ _ _ hx2 hc

theorem heap_merge_split (k : κ) (t : Tree γ) (hh : heapOk prio t = true) :
    heapOk prio (merge prio (split key less t k).1 (split key less t k).2)
      = true := by
  obtain ⟨s1, s2⟩ := heap_split key prio less k t hh
  exact heap_merge prio _ _ s1 s2

theorem inorder_insertT (L : LawfulLess less) (t : Tree γ) (v : γ)
    (hb : bst key less t = true) :
    (insertT key prio less t v).inorder
      = t.inorder.filter (fun x => less (key x) (key v))
        ++ v :: t.inorder.filter (fun x => !less (key x) (key v)) := by
  obtain ⟨e1, e2⟩ := split_filter key less L (key v) t hb
  simp only [insertT]
  rw [inorder_merge, inorder_merge, e1, e2]
  simp [Tree.inorder]

theorem insertT_perm (L : LawfulLess less) (t : Tree γ) (v : γ)
    (hb : bst key less t = true) :
    (insertT key prio less t v).inorder.Perm (v :: t.inorder) := by
  rw [inorder_insertT key prio less L t v hb]
  refine List.Perm.trans (List.perm_middle) ?_
  exact List.Perm.cons v (List.filter_append_perm _ t.inorder)

theorem bst_insertT (L : LawfulLess less) (t : Tree γ) (v : γ)
    (hb : bst key less t = true)
    (hf : ∀ x ∈ t.inorder, key x ≠ key v) :
    bst key less (insertT key prio less t v) = true := by
  obtain ⟨s1, s2⟩ := bst_split key less (key v) t hb
  obtain ⟨e1, e2⟩ := split_filter key less L (key v) t hb
  have hone : bst key less (Tree.node Tree.leaf v Tree.leaf) = true := by
    simp [bst, allT]
  have hgt : ∀ y ∈ (split key less t (key v)).2.inorder,
      less (key v) (key y) = true := by
    intro y hy
    rw [e2, List.mem_filter] at hy
    obtain ⟨hy1, hy2⟩ := hy
    simp only [Bool.not_eq_true'] at hy2
    cases hc : less (key v) (key y)
    · exact absurd (L.conn _ _ hy2 hc) (hf y hy1)
    · rfl
  simp only [insertT]
  apply bst_merge
  · apply bst_merge key prio less _ _ s1 hone
    intro x hx y hy
    simp [Tree.inorder] at hy
    subst hy
    rw [e1, List.mem_filter] at hx
    exact hx.2
  · exact s2
  · intro x hx y hy
    rw [inorder_merge] at hx
    rcases List.mem_append.1 hx with hx | hx
    · rw [e1, List.mem_filter] at hx
      exact L.lt_trans _ _ _ hx.2 (hgt y hy)
    · simp [Tree.inorder] at hx
      subst hx
      exact hgt y hy

theorem heap_insertT (t : Tree γ) (v : γ) (hh : heapOk prio t = true) :
    heapOk prio (insertT key prio less t v) = true := by
  obtain ⟨s1, s2⟩ := heap_split key prio less (key v) t hh
  have hone : heapOk prio (Tree.node Tree.leaf v Tree.leaf) = true := by
    simp [heapOk, allT]
  simp only [insertT]
  exact heap_merge prio _ _ (heap_merge prio _ _ s1 hone) s2

theorem splice_fst (a : Tree γ) (m : γ) (b : Tree γ) :
    some (splice a m b).1 = (Tree.node a m b).inorder.head? := by
  induction a generalizing m b with
  | leaf => simp [splice, Tree.inorder]
  | node a2 w b2 iha _ =>
    simp only [splice]
    rw [iha, inorder_node (Tree.node a2 w b2) m b,
      head?_append_of_ne_nil _ _ (inorder_ne_nil a2 w b2)]

theorem splice_inorder (a : Tree γ) (m : γ) (b : Tree γ) :
    (splice a m b).2.1.inorder = (Tree.node a m b).inorder.tail := by
  induction a generalizing m b with
  | leaf => simp [splice, Tree.inorder]
  | node a2 w b2 iha _ =>
    simp only [splice]
    rw [inorder_node ((splice a2 w b2).2.1) m b,
      inorder_node (Tree.node a2 w b2) m b,
      tail_append_of_ne_nil _ _ (inorder_ne_nil a2 w b2), iha]

theorem allT_splice (p : γ → Bool) (a : Tree γ) (m : γ) (b : Tree γ)
    (h : allT p (Tree.node a m b) = true) :
    allT p (splice a m b).2.1 = true := by
  rw [allT_iff] at h ⊢
  intro x hx
  rw [splice_inorder] at hx
  exact h x (List.mem_of_mem_tail hx)

theorem bst_splice (a : Tree γ) (m : γ) (b : Tree γ)
    (hb : bst key less (Tree.node a m b) = true) :
    bst key less (splice a m b).2.1 = true := by
  induction a generalizing m b with
  | leaf =>
    simp only [splice]
    exact ((bst_node_iff key less _ _ _).1 hb).2.2.2
  | node a2 w b2 iha _ =>
    rw [bst_node_iff] at hb
    obtain ⟨hal, har, hl, hr⟩ := hb
    simp only [splice]
    rw [bst_node_iff]
    exact ⟨allT_splice _ a2 w b2 hal, har, iha w b2 hl, hr⟩

theorem heap_splice (a : Tree γ) (m : γ) (b : Tree γ)
    (hh : heapOk prio (Tree.node a m b) = true) :
    heapOk prio (splice a m b).2.1 = true := by
  induction a generalizing m b with
  | leaf =>
    simp only [splice]
    exact ((heap_node_iff prio _ _ _).1 hh).2.2.2
  | node a2 w b2 iha _ =>
    rw [heap_node_iff] at hh
    obtain ⟨hal, har, hl, hr⟩ := hh
    simp only [splice]
    rw [heap_node_iff]
    exact ⟨allT_splice _ a2 w b2 hal, har, iha w b2 hl, hr⟩

/-- `treap::remove` on a stored key: succeeds, removes exactly the node whose
key compares equal to the query, keeps every other node, and preserves the
BST and heap invariants. -/
theorem removeT_present (L : LawfulLess less) (t : Tree γ) (k : κ) (v : γ)
    (hb : bst key less t = true) (hh : heapOk prio t = true)
    (hv : v ∈ t.inorder) (hk : key v = k) :
    ∃ nx t', removeT key prio less t k = some (nx, t')
      ∧ t.inorder.Perm (v :: t'.inorder)
      ∧ bst key less t' = true
      ∧ heapOk prio t' = true
      ∧ (∀ x ∈ t'.inorder, key x ≠ k)
      ∧ (∀ x ∈ t'.inorder, x ∈ t.inorder) := by
  obtain ⟨e1, e2⟩ := split_filter key less L k t hb
  obtain ⟨sb1, sb2⟩ := bst_split key less k t hb
  obtain ⟨sh1, sh2⟩ := heap_split key prio less k t hh
  have hsplit := inorder_split key less k t
  have hvf : v ∈ (split key less t k).2.inorder := by
    rw [e2]
    refine List.mem_filter.mpr ⟨hv, ?_⟩
    simp [hk, L.irrefl]
  cases hp2 : (split key less t k).2 with
  | leaf =>
    rw [hp2] at hvf
    simp [Tree.inorder] at hvf
  | node a m b =>
    rw [hp2] at sb2 sh2 e2 hvf hsplit
    have hall : ∀ y ∈ (Tree.node a m b).inorder, less (key y) k = false := by
      intro y hy
      rw [e2] at hy
      obtain ⟨-, h2⟩ := List.mem_filter.1 hy
      simpa using h2
    have hpw := bst_pairwise key less L _ sb2
    obtain ⟨tl0, hio⟩ : ∃ tl0, (Tree.node a m b).inorder = v :: tl0 := by
      cases hio : (Tree.node a m b).inorder with
      | nil => exact absurd hio (inorder_ne_nil a m b)
      | cons h0 tl0 =>
        rw [hio] at hvf hpw
        rcases List.mem_cons.1 hvf with rfl | hvtl
        · exact ⟨tl0, rfl⟩
        · have hlt := (List.pairwise_cons.1 hpw).1 v hvtl
          rw [hk] at hlt
          have h0f := hall h0 (by rw [hio]; simp)
          rw [hlt] at h0f
          cases h0f
    have hs1 : (splice a m b).1 = v := by
      have := splice_fst a m b
      rw [hio] at this
      simpa using this
    have htl : (splice a m b).2.1.inorder = tl0 := by
      rw [splice_inorder, hio]
      rfl
    have htlgt : ∀ y ∈ tl0, less k (key y) = true := by
      intro y hy
      have := (List.pairwise_cons.1 (hio ▸ hpw)).1 y hy
      rwa [hk] at this
    have heval : removeT key prio less t k
        = some ((splice a m b).2.2,
                merge prio (split key less t k).1 (splice a m b).2.1) := by
      simp only [removeT]
      rw [hp2]
      simp only [hs1, hk, L.irrefl k, Bool.or_self, Bool.false_eq_true,
        if_false]
    refine ⟨_, _, heval, ?_, ?_, ?_, ?_, ?_⟩
    · rw [inorder_merge, htl, ← hsplit, hio]
      exact List.perm_middle
    · exact bst_merge key prio less _ _ sb1 (bst_splice key less a m b sb2)
        (by
          intro x hx y hy
          rw [e1, List.mem_filter] at hx
          rw [htl] at hy
          exact L.lt_trans _ _ _ hx.2 (htlgt y hy))
    · exact heap_merge prio _ _ sh1 (heap_splice prio a m b sh2)
    · intro x hx
      rw [inorder_merge, htl, List.mem_append] at hx
      rcases hx with hx | hx
      · rw [e1, List.mem_filter] at hx
        intro he
        rw [he] at hx
        exact absurd hx.2 (by simp [L.irrefl])
      · intro he
        have := htlgt x hx
        rw [he] at this
        exact absurd this (by simp [L.irrefl])
    · intro x hx
      rw [inorder_merge, htl, List.mem_append] at hx
      rw [← hsplit, hio, List.mem_append, List.mem_cons]
      rcases hx with hx | hx
      · exact Or.inl hx
      · exact Or.inr (Or.inr hx)

theorem lower_bound_state (t : Tree γ) (k : κ) :
    (lower_bound key prio less t k).2.inorder = t.inorder := by
  simp only [lower_bound]
  exact inorder_merge_split key prio less k t

theorem lower_bound_none_iff (L : LawfulLess less) (t : Tree γ) (k : κ)
    (hb : bst key less t = true) :
    (lower_bound key prio less t k).1 = none
      ↔ ∀ x ∈ t.inorder, less (key x) k = true := by
  obtain ⟨e1, e2⟩ := split_filter key less L k t hb
  simp only [lower_bound]
  rw [leftmost_eq_head, e2, List.head?_eq_none_iff, List.filter_eq_nil_iff]
  constructor
  · intro h x hx
    have := h x hx
    simpa using this
  · intro h x hx
    simp [h x hx]

theorem lower_bound_some (L : LawfulLess less) (t : Tree γ) (k : κ) (v : γ)
    (hb : bst key less t = true)
    (h : (lower_bound key prio less t k).1 = some v) :
    v ∈ t.inorder ∧ less (key v) k = false ∧
      ∀ x ∈ t.inorder, less (key x) k = false → less (key x) (key v) = false := by
  obtain ⟨e1, e2⟩ := split_filter key less L k t hb
  obtain ⟨sb1, sb2⟩ := bst_split key less k t hb
  have hpw := bst_pairwise key less L _ sb2
  simp only [lower_bound] at h
  rw [leftmost_eq_head, e2] at h
  rw [e2] at hpw
  set f := t.inorder.filter (fun x => !less (key x) k) with hf
  cases hfc : f with
  | nil => rw [hfc] at h; cases h
  | cons h0 tl0 =>
    rw [hfc] at h hpw
    rw [List.head?_cons, Option.some.injEq] at h
    have hvmem : v ∈ f := by rw [hfc, ← h]; simp
    obtain ⟨hvt, hvp⟩ := List.mem_filter.1 (hf ▸ hvmem)
    refine ⟨hvt, by simpa using hvp, ?_⟩
    intro x hx hxk
    have hxf : x ∈ f := by
      rw [hf]
      exact List.mem_filter.mpr ⟨hx, by simp [hxk]⟩
    rw [hfc] at hxf
    rcases List.mem_cons.1 hxf with rfl | hxtl
    · rw [h]
      exact L.irrefl _
    · have hpx := (List.pairwise_cons.1 hpw).1 x hxtl
      rw [h] at hpx
      exact lawful_asym less L _ _ hpx

theorem upper_bound_snd (t : Tree γ) (k : κ) :
    (upper_bound key prio less t k).2
      = merge prio (split key less t k).1 (split key less t k).2 := by
  simp only [upper_bound]
  cases hsp : (split key less t k).2 with
  | leaf => rfl
  | node a m b =>
    dsimp only
    split
    · cases (leftmostP a m none).2 with
      | some par => rfl
      | none =>
        cases t with
        | leaf => rfl
        | node l2 rv r2 =>
          dsimp only
          split
          · rfl
          · cases b <;> rfl
    · rfl

theorem upper_bound_state (t : Tree γ) (k : κ) :
    (upper_bound key prio less t k).2.inorder = t.inorder := by
  rw [upper_bound_snd]
  exact inorder_merge_split key prio less k t

end TreapLemmas

/-- One dual-key allocation (`bimap_details::node<Left, Right>`): both keys
and the two independent `random_key` draws of its two `treap_base_node`
sub-objects (the L-view and the R-view each have their own priority). -/
structure DNode (α β : Type) where
  l : α
  r : β
  pl : Nat
  pr : Nat
deriving Repr, DecidableEq

/-- The facade state (`bimap<Left, Right, ...>`): `_size` plus the two trees.
Both trees hold the same dual-key nodes; the left tree is ordered by the `l`
component and `pl` priority, the right tree by `r` and `pr`. -/
structure bimap (α β : Type) where
  sz : Nat
  lt : Tree (DNode α β)
  rt : Tree (DNode α β)
deriving Repr, DecidableEq

/-- A non-end left iterator: designates the L-view
(`treap_node<left_t, Left_Tag>`) of one dual-key allocation. -/
structure left_iterator (α β : Type) where
  node : DNode α β
deriving Repr, DecidableEq

/-- A non-end right iterator: the R-view of one dual-key allocation. -/
structure right_iterator (α β : Type) where
  node : DNode α β
deriving Repr, DecidableEq

/-- `*it` for a left iterator: the stored L-key (a `reference`, i.e. the key
inside the node). -/
def left_iterator.deref (it : left_iterator α β) : α := it.node.l

/-- `*it` for a right iterator: the stored R-key. -/
def right_iterator.deref (it : right_iterator α β) : β := it.node.r

/-- `bimap::iterator::flip` on a left iterator: the `static_cast` chain
`treap_node<L,Left_Tag>* -> node<L,R>* -> treap_node<R,Right_Tag>*` —
the same allocation reinterpreted as the other side's tree node, touching no
tree structure. -/
def left_iterator.flip (it : left_iterator α β) : right_iterator α β :=
  ⟨it.node⟩

/-- `bimap::iterator::flip` on a right iterator. -/
def right_iterator.flip (it : right_iterator α β) : left_iterator α β :=
  ⟨it.node⟩

section BimapOps

variable {α β : Type} (lessL : α → α → Bool) (lessR : β → β → Bool)

/-- `bimap::find_left`: `left_treap.exist(key)`; `none` is `end_left()`. -/
def find_left (b : bimap α β) (k : α) : Option (DNode α β) :=
  exist DNode.l lessL b.lt k

/-- `bimap::find_right`: `right_treap.exist(key)`; `none` is `end_right()`. -/
def find_right (b : bimap α β) (k : β) : Option (DNode α β) :=
  exist DNode.r lessR b.rt k

/-- `bimap::insert(l, r)`: if the container is non-empty and either key is
found on its side, return `end_left()` (`none`) leaving the state untouched;
otherwise allocate one dual node (with the two fresh `rand()` draws `pl`,
`pr`), insert its L-view into the left tree and its R-view into the right
tree, and increment `_size`.  Returns the iterator result and the new
state. -/
def insert (b : bimap α β) (l : α) (r : β) (pl pr : Nat) :
    Option (DNode α β) × bimap α β :=
  if b.sz ≠ 0 ∧ ((find_left lessL b l).isSome ∨ (find_right lessR b r).isSome)
  then
    (none, b)
  else
    let n : DNode α β := ⟨l, r, pl, pr⟩
    (some n,
     ⟨b.sz + 1,
      insertT DNode.l DNode.pl lessL b.lt n,
      insertT DNode.r DNode.pr lessR b.rt n⟩)

/-- `bimap::erase_left(iterator)` positioned at node `n`: remove `*it` from
the left tree and `*it.flip()` from the right tree, free the node, decrement
`_size`.  `none` models the undefined behaviour of `treap::remove` when the
key is absent from a tree.  (The returned in-order-successor iterator is not
modelled; no claim consults it.) -/
def erase_left_at (b : bimap α β) (n : DNode α β) : Option (bimap α β) :=
  match removeT DNode.l DNode.pl lessL b.lt n.l with
  | none => none
  | some (_, lt') =>
    match removeT DNode.r DNode.pr lessR b.rt n.r with
    | none => none
    | some (_, rt') => some ⟨b.sz - 1, lt', rt'⟩

/-- `bimap::erase_right(iterator)` positioned at node `n`. -/
def erase_right_at (b : bimap α β) (n : DNode α β) : Option (bimap α β) :=
  match removeT DNode.r DNode.pr lessR b.rt n.r with
  | none => none
  | some (_, rt') =>
    match removeT DNode.l DNode.pl lessL b.lt n.l with
    | none => none
    | some (_, lt') => some ⟨b.sz - 1, lt', rt'⟩

/-- `bimap::erase_left(left_t const&)`: find-then-erase; the `Bool` is the
"was present" result. -/
def erase_left (b : bimap α β) (k : α) : Option (Bool × bimap α β) :=
  match find_left lessL b k with
  | none => some (false, b)
  | some n => (erase_left_at lessL lessR b n).map (fun b' => (true, b'))

/-- `bimap::erase_right(right_t const&)`. -/
def erase_right (b : bimap α β) (k : β) : Option (Bool × bimap α β) :=
  match find_right lessR b k with
  | none => some (false, b)
  | some n => (erase_right_at lessL lessR b n).map (fun b' => (true, b'))

/-- `bimap::at_left_or_default(key)`: if `key` is found, its pair's R-value;
otherwise erase the pair holding the default R-value (if any) and insert
`(key, default)`, returning `*(insert(...)).flip()`.  `dflt` models the
default-constructed `right_t{}`; `pl`, `pr` the new node's priority draws.
The outer `none` covers the undefined paths (erase on an inconsistent state,
or dereferencing `end_left().flip()` should that insert be rejected). -/
def at_left_or_default (b : bimap α β) (k : α) (dflt : β) (pl pr : Nat) :
    Option (β × bimap α β) :=
  match find_left lessL b k with
  | some n => some (n.r, b)
  | none =>
    let step : Option (bimap α β) :=
      match find_right lessR b dflt with
      | some it => erase_right_at lessL lessR b it
      | none => some b
    match step with
    | none => none
    | some b1 =>
      match insert lessL lessR b1 k dflt pl pr with
      | (some n, b2) => some (n.r, b2)
      | (none, _) => none

/-- `bimap::at_right_or_default(key)`: symmetric; returns
`*(insert(std::move(dflt), key))`, the inserted L-key. -/
def at_right_or_default (b : bimap α β) (k : β) (dflt : α) (pl pr : Nat) :
    Option (α × bimap α β) :=
  match find_right lessR b k with
  | some n => some (n.l, b)
  | none =>
    let step : Option (bimap α β) :=
      match find_left lessL b dflt with
      | some it => erase_left_at lessL lessR b it
      | none => some b
    match step with
    | none => none
    | some b1 =>
      match insert lessL lessR b1 dflt k pl pr with
      | (some n, b2) => some (n.l, b2)
      | (none, _) => none

/-- `bimap::lower_bound_left`: delegates to the left treap; the treap's
split-then-remerge physically rebuilds the tree, so the state is returned
too. -/
def lower_bound_left (b : bimap α β) (k : α) :
    Option (DNode α β) × bimap α β :=
  let p := lower_bound DNode.l DNode.pl lessL b.lt k
  (p.1, ⟨b.sz, p.2, b.rt⟩)

/-- `bimap::upper_bound_left`. -/
def upper_bound_left (b : bimap α β) (k : α) :
    Option (DNode α β) × bimap α β :=
  let p := upper_bound DNode.l DNode.pl lessL b.lt k
  (p.1, ⟨b.sz, p.2, b.rt⟩)

/-- `bimap::lower_bound_right`. -/
def lower_bound_right (b : bimap α β) (k : β) :
    Option (DNode α β) × bimap α β :=
  let p := lower_bound DNode.r DNode.pr lessR b.rt k
  (p.1, ⟨b.sz, b.lt, p.2⟩)

/-- `bimap::upper_bound_right`. -/
def upper_bound_right (b : bimap α β) (k : β) :
    Option (DNode α β) × bimap α β :=
  let p := upper_bound DNode.r DNode.pr lessR b.rt k
  (p.1, ⟨b.sz, b.lt, p.2⟩)

/-- `bimap(bimap&& other)`: the new container takes `other.size()` and steals
both trees (the treap move constructor nulls the source's root pointer);
`other._size` is NOT reset.  Returns (destination, source after the move). -/
def move_construct (other : bimap α β) : bimap α β × bimap α β :=
  (⟨other.sz, other.lt, other.rt⟩, ⟨other.sz, .leaf, .leaf⟩)

/-- `bimap::operator=(bimap&&)`: a no-op when `this == &other` or
`other.empty()`; otherwise `clear()` the destination, take `other.size()` and
steal the trees (the treap move assignment nulls the source's roots);
`other._size` again stays stale.  Returns (destination, source). -/
def move_assign (dest other : bimap α β) : bimap α β × bimap α β :=
  if other.sz = 0 then (dest, other)
  else (⟨other.sz, other.lt, other.rt⟩, ⟨other.sz, .leaf, .leaf⟩)

/-- The loop of `clear()` (range `erase_left(begin_left(), end_left())`):
repeatedly erase the pair at `begin_left()` (the leftmost node) until the
left tree is empty.  Fueled recursion; exhausted fuel on a nonempty tree
(impossible under the size invariant, where `count` steps suffice) is mapped
to `none` like the other undefined paths. -/
def clear_go : Nat → bimap α β → Option (bimap α β)
  | 0, b => if b.lt.isLeaf then some b else none
  | fuel + 1, b =>
    match leftmost b.lt with
    | none => some b
    | some n =>
      match erase_left_at lessL lessR b n with
      | none => none
      | some b' => clear_go fuel b'

/-- `bimap::clear()`. -/
def clear (b : bimap α β) : Option (bimap α β) :=
  clear_go lessL lessR b.lt.count b

/-- The set of pairs, read off the left tree in L-order. -/
def to_pairs (b : bimap α β) : List (α × β) :=
  b.lt.inorder.map (fun n => (n.l, n.r))

/-- The insert loop shared by the copy constructor and copy assignment:
`insert(*it, *it.flip())` for each pair in L-order.  `ps` supplies the
successive pairs of `rand()` draws. -/
def build_from : List (α × β) → List (Nat × Nat) → bimap α β → bimap α β
  | [], _, b => b
  | (l, r) :: rest, ps, b =>
    build_from rest ps.tail
      (insert lessL lessR b l r (ps.headD (0, 0)).1 (ps.headD (0, 0)).2).2

/-- `bimap(bimap const&)`: fresh empty trees (the treap copy constructor
copies only the comparator), then the insert loop.  The exception path is
not modelled: allocation never fails in the embedding. -/
def copy_construct (other : bimap α β) (ps : List (Nat × Nat)) : bimap α β :=
  build_from lessL lessR (to_pairs other) ps ⟨0, .leaf, .leaf⟩

/-- `bimap::operator=(bimap const&)`: a no-op when `this == &other` or
`other.empty()`; otherwise `clear()`, treap copy assignment (copying only the
comparators), then the insert loop. -/
def copy_assign (dest other : bimap α β) (ps : List (Nat × Nat)) :
    Option (bimap α β) :=
  if other.sz = 0 then some dest
  else
    match clear lessL lessR dest with
    | none => none
    | some c => some (build_from lessL lessR (to_pairs other) ps c)

/-- `bimap::swap`: exchanges the two trees' roots (and comparators) between
the containers; `_size` is NOT exchanged. -/
def swapB (a b : bimap α β) : bimap α β × bimap α β :=
  (⟨a.sz, b.lt, b.rt⟩, ⟨b.sz, a.lt, a.rt⟩)

end BimapOps

section BimapEq

variable {α β : Type} [DecidableEq α] [DecidableEq β]

/-- The simultaneous walk of `operator==`: compare `*it` and `*it.flip()`
with the key types' `operator==`, stopping successfully at the first end. -/
def pairs_walk_eq : List (DNode α β) → List (DNode α β) → Bool
  | [], _ => true
  | _, [] => true
  | x :: xs, y :: ys =>
    if x.l = y.l ∧ x.r = y.r then pairs_walk_eq xs ys else false

/-- `operator==(bimap const&, bimap const&)`: false if the sizes differ,
otherwise the simultaneous L-order walk. -/
def beq (a b : bimap α β) : Bool :=
  if a.sz ≠ b.sz then false
  else pairs_walk_eq a.lt.inorder b.lt.inorder

end BimapEq

section BimapInv

variable {α β : Type} (lessL : α → α → Bool) (lessR : β → β → Bool)

/-- Well-formedness of a facade state: both trees are valid treaps (strict
BST by their side's key, max-heap by their side's priority), both trees hold
the same multiset of dual nodes, and `_size` is the node count. -/
def Inv (b : bimap α β) : Prop :=
  bst DNode.l lessL b.lt = true ∧ heapOk DNode.pl b.lt = true ∧
  bst DNode.r lessR b.rt = true ∧ heapOk DNode.pr b.rt = true ∧
  b.lt.inorder.Perm b.rt.inorder ∧
  b.sz = b.lt.count

/-- Weak well-formedness: as `Inv` but `_size` only bounds the node count
from above.  Moved-from containers (whose `_size` is stale while their trees
are empty) satisfy this, and it is preserved by every facade operation except
`swap`. -/
def InvW (b : bimap α β) : Prop :=
  bst DNode.l lessL b.lt = true ∧ heapOk DNode.pl b.lt = true ∧
  bst DNode.r lessR b.rt = true ∧ heapOk DNode.pr b.rt = true ∧
  b.lt.inorder.Perm b.rt.inorder ∧
  b.lt.count ≤ b.sz

theorem Inv.toW {b : bimap α β} (h : Inv lessL lessR b) : InvW lessL lessR b :=
  ⟨h.1, h.2.1, h.2.2.1, h.2.2.2.1, h.2.2.2.2.1, le_of_eq h.2.2.2.2.2.symm⟩

instance instDecInv [DecidableEq α] [DecidableEq β] (b : bimap α β) :
    Decidable (Inv lessL lessR b) := by
  unfold Inv
  exact inferInstance

instance instDecInvW [DecidableEq α] [DecidableEq β] (b : bimap α β) :
    Decidable (InvW lessL lessR b) := by
  unfold InvW
  exact inferInstance

end BimapInv

section BimapLemmas

variable {α β : Type} (lessL : α → α → Bool) (lessR : β → β → Bool)

theorem find_left_none_iff (LL : LawfulLess lessL) (b : bimap α β) (k : α)
    (hb : bst DNode.l lessL b.lt = true) :
    find_left lessL b k = none ↔ ∀ n ∈ b.lt.inorder, n.l ≠ k := by
  exact exist_none_iff DNode.l lessL LL b.lt k hb

theorem find_left_some (LL : LawfulLess lessL) (b : bimap α β) (k : α)
    (n : DNode α β) (hb : bst DNode.l lessL b.lt = true)
    (h : find_left lessL b k = some n) : n ∈ b.lt.inorder ∧ n.l = k :=
  exist_some DNode.l lessL LL b.lt k n hb h

theorem find_right_none_iff (LR : LawfulLess lessR) (b : bimap α β) (k : β)
    (hb : bst DNode.r lessR b.rt = true) :
    find_right lessR b k = none ↔ ∀ n ∈ b.rt.inorder, n.r ≠ k :=
  exist_none_iff DNode.r lessR LR b.rt k hb

theorem find_right_some (LR : LawfulLess lessR) (b : bimap α β) (k : β)
    (n : DNode α β) (hb : bst DNode.r lessR b.rt = true)
    (h : find_right lessR b k = some n) : n ∈ b.rt.inorder ∧ n.r = k :=
  exist_some DNode.r lessR LR b.rt k n hb h

/-- The rejection branch of `insert`: non-empty container and a hit on either
side means no allocation and no mutation. -/
theorem insert_reject (b : bimap α β) (l : α) (r : β) (pl pr : Nat)
    (hsz : b.sz ≠ 0)
    (hcol : (find_left lessL b l).isSome = true ∨
            (find_right lessR b r).isSome = true) :
    insert lessL lessR b l r pl pr = (none, b) := by
  simp [insert, hsz, hcol]

/-- The successful branch of `insert`, written out. -/
theorem insert_success (b : bimap α β) (l : α) (r : β) (pl pr : Nat)
    (hfl : find_left lessL b l = none) (hfr : find_right lessR b r = none) :
    insert lessL lessR b l r pl pr
      = (some ⟨l, r, pl, pr⟩,
         ⟨b.sz + 1,
          insertT DNode.l DNode.pl lessL b.lt ⟨l, r, pl, pr⟩,
          insertT DNode.r DNode.pr lessR b.rt ⟨l, r, pl, pr⟩⟩) := by
  simp [insert, hfl, hfr]

/-- A successful `insert` preserves well-formedness and adds exactly the new
dual node to both trees. -/
theorem insert_inv (LL : LawfulLess lessL) (LR : LawfulLess lessR)
    (b : bimap α β) (l : α) (r : β) (pl pr : Nat)
    (hi : Inv lessL lessR b)
    (hfl : find_left lessL b l = none) (hfr : find_right lessR b r = none) :
    Inv lessL lessR (insert lessL lessR b l r pl pr).2
    ∧ (insert lessL lessR b l r pl pr).2.lt.inorder.Perm
        ((⟨l, r, pl, pr⟩ : DNode α β) :: b.lt.inorder)
    ∧ (insert lessL lessR b l r pl pr).2.sz = b.sz + 1 := by
  obtain ⟨hb1, hh1, hb2, hh2, hperm, hsz⟩ := hi
  have hfreshL : ∀ x ∈ b.lt.inorder, DNode.l x ≠ l :=
    (find_left_none_iff lessL LL b l hb1).1 hfl
  have hfreshR : ∀ x ∈ b.rt.inorder, DNode.r x ≠ r :=
    (find_right_none_iff lessR LR b r hb2).1 hfr
  rw [insert_success lessL lessR b l r pl pr hfl hfr]
  have hpl := insertT_perm DNode.l DNode.pl lessL LL b.lt ⟨l, r, pl, pr⟩ hb1
  have hpr := insertT_perm DNode.r DNode.pr lessR LR b.rt ⟨l, r, pl, pr⟩ hb2
  refine ⟨⟨?_, ?_, ?_, ?_, ?_, ?_⟩, hpl, rfl⟩
  · exact bst_insertT DNode.l DNode.pl lessL LL b.lt _ hb1 hfreshL
  · exact heap_insertT DNode.l DNode.pl lessL b.lt _ hh1
  · exact bst_insertT DNode.r DNode.pr lessR LR b.rt _ hb2 hfreshR
  · exact heap_insertT DNode.r DNode.pr lessR b.rt _ hh2
  · exact hpl.trans ((hperm.cons _).trans hpr.symm)
  · show b.sz + 1 = _
    rw [Tree.count, hpl.length_eq, List.length_cons, hsz, Tree.count]

/-- `insert` preserves weak well-formedness unconditionally (any key pair,
any priorities, any reachable state — including size-stale moved-from
states). -/
theorem insert_invW (LL : LawfulLess lessL) (LR : LawfulLess lessR)
    (b : bimap α β) (l : α) (r : β) (pl pr : Nat)
    (hw : InvW lessL lessR b) :
    InvW lessL lessR (insert lessL lessR b l r pl pr).2 := by
  obtain ⟨hb1, hh1, hb2, hh2, hperm, hsz⟩ := hw
  by_cases hg : b.sz ≠ 0 ∧
      ((find_left lessL b l).isSome = true ∨
       (find_right lessR b r).isSome = true)
  · rw [insert, if_pos hg]
    exact ⟨hb1, hh1, hb2, hh2, hperm, hsz⟩
  · have hcase : (find_left lessL b l = none ∧ find_right lessR b r = none)
        ∨ b.sz = 0 := by
      by_cases h0 : b.sz = 0
      · exact Or.inr h0
      · left
        push_neg at hg
        obtain ⟨h1, h2⟩ := hg h0
        exact ⟨Option.not_isSome_iff_eq_none.1 (by simp [h1]),
               Option.not_isSome_iff_eq_none.1 (by simp [h2])⟩
    have hfreshL : ∀ x ∈ b.lt.inorder, DNode.l x ≠ l := by
      rcases hcase with ⟨h1, -⟩ | h0
      · exact (find_left_none_iff lessL LL b l hb1).1 h1
      · intro x hx
        have h1 := hsz
        rw [Tree.count] at h1
        have hlen0 : b.lt.inorder.length = 0 := by omega
        rw [List.length_eq_zero] at hlen0
        rw [hlen0] at hx
        cases hx
    have hfreshR : ∀ x ∈ b.rt.inorder, DNode.r x ≠ r := by
      rcases hcase with ⟨-, h2⟩ | h0
      · exact (find_right_none_iff lessR LR b r hb2).1 h2
      · intro x hx
        have h1 := hsz
        rw [Tree.count] at h1
        have h2 := hperm.length_eq
        have hlen0 : b.rt.inorder.length = 0 := by omega
        rw [List.length_eq_zero] at hlen0
        rw [hlen0] at hx
        cases hx
    rw [insert, if_neg hg]
    have hpl := insertT_perm DNode.l DNode.pl lessL LL b.lt ⟨l, r, pl, pr⟩ hb1
    have hpr := insertT_perm DNode.r DNode.pr lessR LR b.rt ⟨l, r, pl, pr⟩ hb2
    refine ⟨?_, ?_, ?_, ?_, ?_, ?_⟩
    · exact bst_insertT DNode.l DNode.pl lessL LL b.lt _ hb1 hfreshL
    · exact heap_insertT DNode.l DNode.pl lessL b.lt _ hh1
    · exact bst_insertT DNode.r DNode.pr lessR LR b.rt _ hb2 hfreshR
    · exact heap_insertT DNode.r DNode.pr lessR b.rt _ hh2
    · exact hpl.trans ((hperm.cons _).trans hpr.symm)
    · show Tree.count _ ≤ b.sz + 1
      rw [Tree.count, hpl.length_eq, List.length_cons]
      rw [Tree.count] at hsz
      omega

/-- `erase_left(iterator)` at a live node: both `remove`s succeed, exactly
that node leaves both trees, `_size` drops by one, and all tree invariants
survive. -/
theorem erase_left_at_spec (LL : LawfulLess lessL) (LR : LawfulLess lessR)
    (b : bimap α β) (n : DNode α β)
    (hb1 : bst DNode.l lessL b.lt = true) (hh1 : heapOk DNode.pl b.lt = true)
    (hb2 : bst DNode.r lessR b.rt = true) (hh2 : heapOk DNode.pr b.rt = true)
    (hperm : b.lt.inorder.Perm b.rt.inorder) (hn : n ∈ b.lt.inorder) :
    ∃ b', erase_left_at lessL lessR b n = some b'
      ∧ b'.sz = b.sz - 1
      ∧ bst DNode.l lessL b'.lt = true ∧ heapOk DNode.pl b'.lt = true
      ∧ bst DNode.r lessR b'.rt = true ∧ heapOk DNode.pr b'.rt = true
      ∧ b.lt.inorder.Perm (n :: b'.lt.inorder)
      ∧ b.rt.inorder.Perm (n :: b'.rt.inorder)
      ∧ (∀ x ∈ b'.lt.inorder, x ∈ b.lt.inorder)
      ∧ (∀ x ∈ b'.rt.inorder, x ∈ b.rt.inorder)
      ∧ (∀ x ∈ b'.lt.inorder, x.l ≠ n.l)
      ∧ (∀ x ∈ b'.rt.inorder, x.r ≠ n.r) := by
  obtain ⟨nx1, lt', he1, hp1, hbl', hhl', hne1, hsub1⟩ :=
    removeT_present DNode.l DNode.pl lessL LL b.lt n.l n hb1 hh1 hn rfl
  have hnr : n ∈ b.rt.inorder := hperm.mem_iff.1 hn
  obtain ⟨nx2, rt', he2, hp2, hbr', hhr', hne2, hsub2⟩ :=
    removeT_present DNode.r DNode.pr lessR LR b.rt n.r n hb2 hh2 hnr rfl
  refine ⟨⟨b.sz - 1, lt', rt'⟩, ?_, rfl, hbl', hhl', hbr', hhr',
    hp1, hp2, ?_, ?_, hne1, hne2⟩
  · rw [erase_left_at, he1, he2]
  · intro x hx
    exact hsub1 x hx
  · intro x hx
    exact hsub2 x hx

/-- `erase_right(iterator)` at a live node: symmetric to the left case. -/
theorem erase_right_at_spec (LL : LawfulLess lessL) (LR : LawfulLess lessR)
    (b : bimap α β) (n : DNode α β)
    (hb1 : bst DNode.l lessL b.lt = true) (hh1 : heapOk DNode.pl b.lt = true)
    (hb2 : bst DNode.r lessR b.rt = true) (hh2 : heapOk DNode.pr b.rt = true)
    (hperm : b.lt.inorder.Perm b.rt.inorder) (hn : n ∈ b.rt.inorder) :
    ∃ b', erase_right_at lessL lessR b n = some b'
      ∧ b'.sz = b.sz - 1
      ∧ bst DNode.l lessL b'.lt = true ∧ heapOk DNode.pl b'.lt = true
      ∧ bst DNode.r lessR b'.rt = true ∧ heapOk DNode.pr b'.rt = true
      ∧ b.lt.inorder.Perm (n :: b'.lt.inorder)
      ∧ b.rt.inorder.Perm (n :: b'.rt.inorder)
      ∧ (∀ x ∈ b'.lt.inorder, x ∈ b.lt.inorder)
      ∧ (∀ x ∈ b'.rt.inorder, x ∈ b.rt.inorder)
      ∧ (∀ x ∈ b'.lt.inorder, x.l ≠ n.l)
      ∧ (∀ x ∈ b'.rt.inorder, x.r ≠ n.r) := by
  obtain ⟨nx2, rt', he2, hp2, hbr', hhr', hne2, hsub2⟩ :=
    removeT_present DNode.r DNode.pr lessR LR b.rt n.r n hb2 hh2 hn rfl
  have hnl : n ∈ b.lt.inorder := hperm.mem_iff.2 hn
  obtain ⟨nx1, lt', he1, hp1, hbl', hhl', hne1, hsub1⟩ :=
    removeT_present DNode.l DNode.pl lessL LL b.lt n.l n hb1 hh1 hnl rfl
  refine ⟨⟨b.sz - 1, lt', rt'⟩, ?_, rfl, hbl', hhl', hbr', hhr',
    hp1, hp2, ?_, ?_, hne1, hne2⟩
  · rw [erase_right_at, he2, he1]
  · intro x hx
    exact hsub1 x hx
  · intro x hx
    exact hsub2 x hx

/-- `erase_left(iterator)` preserves `Inv` (losing exactly the erased
node). -/
theorem erase_left_at_inv (LL : LawfulLess lessL) (LR : LawfulLess lessR)
    (b : bimap α β) (n : DNode α β) (hi : Inv lessL lessR b)
    (hn : n ∈ b.lt.inorder) :
    ∃ b', erase_left_at lessL lessR b n = some b'
      ∧ Inv lessL lessR b'
      ∧ b'.sz = b.sz - 1
      ∧ b.lt.inorder.Perm (n :: b'.lt.inorder)
      ∧ (∀ x ∈ b'.lt.inorder, x ∈ b.lt.inorder)
      ∧ (∀ x ∈ b'.rt.inorder, x ∈ b.rt.inorder)
      ∧ (∀ x ∈ b'.lt.inorder, x.l ≠ n.l)
      ∧ (∀ x ∈ b'.rt.inorder, x.r ≠ n.r) := by
  obtain ⟨hb1, hh1, hb2, hh2, hperm, hsz⟩ := hi
  obtain ⟨b', he, hs, c1, c2, c3, c4, q1, q2, s1, s2, u1, u2⟩ :=
    erase_left_at_spec lessL lessR LL LR b n hb1 hh1 hb2 hh2 hperm hn
  refine ⟨b', he, ⟨c1, c2, c3, c4, ?_, ?_⟩, hs, q1, s1, s2, u1, u2⟩
  · exact (q1.symm.trans (hperm.trans q2)).cons_inv
  · have hlen := q1.length_eq
    rw [List.length_cons] at hlen
    rw [hs, Tree.count]
    rw [Tree.count] at hsz
    omega

/-- `erase_right(iterator)` preserves `Inv`. -/
theorem erase_right_at_inv (LL : LawfulLess lessL) (LR : LawfulLess lessR)
    (b : bimap α β) (n : DNode α β) (hi : Inv lessL lessR b)
    (hn : n ∈ b.rt.inorder) :
    ∃ b', erase_right_at lessL lessR b n = some b'
      ∧ Inv lessL lessR b'
      ∧ b'.sz = b.sz - 1
      ∧ b.rt.inorder.Perm (n :: b'.rt.inorder)
      ∧ (∀ x ∈ b'.lt.inorder, x ∈ b.lt.inorder)
      ∧ (∀ x ∈ b'.rt.inorder, x ∈ b.rt.inorder)
      ∧ (∀ x ∈ b'.lt.inorder, x.l ≠ n.l)
      ∧ (∀ x ∈ b'.rt.inorder, x.r ≠ n.r) := by
  obtain ⟨hb1, hh1, hb2, hh2, hperm, hsz⟩ := hi
  obtain ⟨b', he, hs, c1, c2, c3, c4, q1, q2, s1, s2, u1, u2⟩ :=
    erase_right_at_spec lessL lessR LL LR b n hb1 hh1 hb2 hh2 hperm hn
  refine ⟨b', he, ⟨c1, c2, c3, c4, ?_, ?_⟩, hs, q2, s1, s2, u1, u2⟩
  · exact (q1.symm.trans (hperm.trans q2)).cons_inv
  · have hlen := q1.length_eq
    rw [List.length_cons] at hlen
    rw [hs, Tree.count]
    rw [Tree.count] at hsz
    omega

end BimapLemmas

section Claims

variable {α β : Type}

/-- C1: on every well-formed bimap state, if the container is non-empty and
the candidate L-key compares equal to some stored L-key, or the candidate
R-key compares equal to some stored R-key, then `insert(l, r)` returns
`end_left()` and leaves the container completely unchanged — no new node,
size unchanged, every stored pair intact (the state is returned verbatim).
In particular `insert(a, x)` followed by `insert(a, y)` is a no-op. -/
theorem C1_insert_duplicate_rejected
    (lessL : α → α → Bool) (lessR : β → β → Bool)
    (LL : LawfulLess lessL) (LR : LawfulLess lessR)
    (b : bimap α β) (l : α) (r : β) (pl pr : Nat)
    (hi : Inv lessL lessR b) (hne : b.sz ≠ 0)
    (hcol : (∃ n ∈ b.lt.inorder, lessL n.l l = false ∧ lessL l n.l = false)
          ∨ (∃ n ∈ b.rt.inorder, lessR n.r r = false ∧ lessR r n.r = false)) :
    insert lessL lessR b l r pl pr = (none, b) := by
  obtain ⟨hb1, -, hb2, -, -, -⟩ := hi
  apply insert_reject lessL lessR b l r pl pr hne
  rcases hcol with ⟨n, hn, h1, h2⟩ | ⟨n, hn, h1, h2⟩
  · left
    rw [← Option.ne_none_iff_isSome]
    intro hnone
    exact (find_left_none_iff lessL LL b l hb1).1 hnone n hn (LL.conn _ _ h1 h2)
  · right
    rw [← Option.ne_none_iff_isSome]
    intro hnone
    exact (find_right_none_iff lessR LR b r hb2).1 hnone n hn (LR.conn _ _ h1 h2)

theorem C1_insert_duplicate_rejected_witness :
    LawfulLess natLt ∧
    Inv natLt natLt
      (⟨1, Tree.node .leaf (⟨1, 2, 5, 7⟩ : DNode Nat Nat) .leaf,
        Tree.node .leaf ⟨1, 2, 5, 7⟩ .leaf⟩ : bimap Nat Nat) ∧
    (1 : Nat) ≠ 0 ∧
    (∃ n ∈ (Tree.node Tree.leaf (⟨1, 2, 5, 7⟩ : DNode Nat Nat)
        Tree.leaf).inorder,
      natLt n.l 1 = false ∧ natLt 1 n.l = false) ∧
    insert natLt natLt
      (⟨1, Tree.node .leaf ⟨1, 2, 5, 7⟩ .leaf,
        Tree.node .leaf ⟨1, 2, 5, 7⟩ .leaf⟩ : bimap Nat Nat) 1 9 3 4
      = (none,
         ⟨1, Tree.node .leaf ⟨1, 2, 5, 7⟩ .leaf,
          Tree.node .leaf ⟨1, 2, 5, 7⟩ .leaf⟩) :=
  ⟨lawful_natLt, by decide, by decide, by decide,
   C1_insert_duplicate_rejected natLt natLt lawful_natLt lawful_natLt
     _ 1 9 3 4 (by decide) (by decide) (Or.inl (by decide))⟩

/-- C5: for every non-end left iterator and every non-end right iterator
(a non-end iterator designates a live dual node), `flip` is an involution —
`flip(flip(it)) == it` — and dereferencing `flip(it)` yields the
opposite-side key of the very same stored pair that `*it` belongs to; `flip`
is node reinterpretation only and consults no tree. -/
theorem C5_flip_involution (itL : left_iterator α β)
    (itR : right_iterator α β) :
    itL.flip.flip = itL ∧ itL.deref = itL.node.l ∧ itL.flip.deref = itL.node.r
    ∧ itR.flip.flip = itR ∧ itR.deref = itR.node.r
    ∧ itR.flip.deref = itR.node.l :=
  ⟨rfl, rfl, rfl, rfl, rfl, rfl⟩

/-- C7 (code-bug evidence): move construction and move assignment from a
one-pair bimap transfer the pair to the destination, but the source does
NOT become empty: `_size` is never reset, so the moved-from container
reports `size() == 1` and `empty() == false` even though both its trees are
gone. -/
theorem C7_move_source_size_stale :
    (move_construct (⟨1,
        Tree.node .leaf (⟨1, 2, 5, 7⟩ : DNode Nat Nat) .leaf,
        Tree.node .leaf ⟨1, 2, 5, 7⟩ .leaf⟩ : bimap Nat Nat)).1
      = ⟨1, Tree.node .leaf ⟨1, 2, 5, 7⟩ .leaf,
          Tree.node .leaf ⟨1, 2, 5, 7⟩ .leaf⟩
    ∧ (move_construct (⟨1,
        Tree.node .leaf (⟨1, 2, 5, 7⟩ : DNode Nat Nat) .leaf,
        Tree.node .leaf ⟨1, 2, 5, 7⟩ .leaf⟩ : bimap Nat Nat)).2.sz = 1
    ∧ (move_construct (⟨1,
        Tree.node .leaf (⟨1, 2, 5, 7⟩ : DNode Nat Nat) .leaf,
        Tree.node .leaf ⟨1, 2, 5, 7⟩ .leaf⟩ : bimap Nat Nat)).2.lt
      = Tree.leaf
    ∧ (move_assign (⟨0, Tree.leaf, Tree.leaf⟩ : bimap Nat Nat)
        ⟨1, Tree.node .leaf ⟨1, 2, 5, 7⟩ .leaf,
         Tree.node .leaf ⟨1, 2, 5, 7⟩ .leaf⟩).2.sz = 1
    ∧ (move_assign (⟨0, Tree.leaf, Tree.leaf⟩ : bimap Nat Nat)
        ⟨1, Tree.node .leaf ⟨1, 2, 5, 7⟩ .leaf,
         Tree.node .leaf ⟨1, 2, 5, 7⟩ .leaf⟩).1.sz = 1 := by
  refine ⟨rfl, rfl, rfl, ?_, ?_⟩ <;> decide

/-- C10: copy assignment and move assignment from an empty source are
complete no-ops on a non-empty destination: the `other.empty()` guard
returns `*this` untouched, so the destination keeps all its pairs and its
size instead of becoming empty like the source. -/
theorem C10_assign_from_empty_noop
    (lessL : α → α → Bool) (lessR : β → β → Bool)
    (dest e : bimap α β) (ps : List (Nat × Nat)) (he : e.sz = 0) :
    copy_assign lessL lessR dest e ps = some dest
    ∧ move_assign dest e = (dest, e) := by
  constructor
  · rw [copy_assign, if_pos he]
  · rw [move_assign, if_pos he]

theorem C10_assign_from_empty_noop_witness :
    (0 : Nat) = 0 ∧
    (copy_assign natLt natLt
        (⟨1, Tree.node .leaf (⟨1, 2, 5, 7⟩ : DNode Nat Nat) .leaf,
          Tree.node .leaf ⟨1, 2, 5, 7⟩ .leaf⟩ : bimap Nat Nat)
        ⟨0, Tree.leaf, Tree.leaf⟩ [(3, 4)]
      = some ⟨1, Tree.node .leaf ⟨1, 2, 5, 7⟩ .leaf,
              Tree.node .leaf ⟨1, 2, 5, 7⟩ .leaf⟩
    ∧ move_assign
        (⟨1, Tree.node .leaf (⟨1, 2, 5, 7⟩ : DNode Nat Nat) .leaf,
          Tree.node .leaf ⟨1, 2, 5, 7⟩ .leaf⟩ : bimap Nat Nat)
        ⟨0, Tree.leaf, Tree.leaf⟩
      = (⟨1, Tree.node .leaf ⟨1, 2, 5, 7⟩ .leaf,
          Tree.node .leaf ⟨1, 2, 5, 7⟩ .leaf⟩,
         ⟨0, Tree.leaf, Tree.leaf⟩)) :=
  ⟨rfl, C10_assign_from_empty_noop natLt natLt _ _ [(3, 4)] rfl⟩

/-- C2: for every well-formed bimap containing a pair — a dual node `n`, so
`k = n.l`, `r = n.r` — `erase_left(k)` succeeds returning `true`, and in the
resulting state `find_left(k)` is `end_left()`, `find_right(r)` is
`end_right()` (the partner key is gone from the other side too), and `size()`
has decreased by exactly one; symmetrically for `erase_right(r)`. -/
theorem C2_erase_removes_pair_both_sides
    (lessL : α → α → Bool) (lessR : β → β → Bool)
    (LL : LawfulLess lessL) (LR : LawfulLess lessR)
    (b : bimap α β) (n : DNode α β)
    (hi : Inv lessL lessR b) (hn : n ∈ b.lt.inorder) :
    (∃ b', erase_left lessL lessR b n.l = some (true, b')
       ∧ find_left lessL b' n.l = none
       ∧ find_right lessR b' n.r = none
       ∧ b'.sz + 1 = b.sz)
    ∧ (∃ b'', erase_right lessL lessR b n.r = some (true, b'')
       ∧ find_right lessR b'' n.r = none
       ∧ find_left lessL b'' n.l = none
       ∧ b''.sz + 1 = b.sz) := by
  have hi' := hi
  obtain ⟨hb1, hh1, hb2, hh2, hperm, hsz⟩ := hi'
  have hszpos : 1 ≤ b.sz := by
    rw [hsz, Tree.count]
    exact List.length_pos.mpr (List.ne_nil_of_mem hn)
  constructor
  · -- erase_left(n.l)
    have hfind : find_left lessL b n.l = some n := by
      cases hf : find_left lessL b n.l with
      | none =>
        exact absurd rfl ((find_left_none_iff lessL LL b n.l hb1).1 hf n hn)
      | some m =>
        obtain ⟨hm, hml⟩ := find_left_some lessL LL b n.l m hb1 hf
        rw [bst_key_inj DNode.l lessL LL b.lt hb1 m hm n hn hml]
    obtain ⟨b', he, hinv', hs, hp, su1, su2, u1, u2⟩ :=
      erase_left_at_inv lessL lessR LL LR b n hi hn
    refine ⟨b', ?_, ?_, ?_, ?_⟩
    · rw [erase_left, hfind]
      show Option.map (fun b' => (true, b')) (erase_left_at lessL lessR b n)
        = _
      rw [he]
      rfl
    · exact (find_left_none_iff lessL LL b' n.l hinv'.1).2 u1
    · exact (find_right_none_iff lessR LR b' n.r hinv'.2.2.1).2 u2
    · omega
  · -- erase_right(n.r)
    have hnr : n ∈ b.rt.inorder := hperm.mem_iff.1 hn
    have hfind : find_right lessR b n.r = some n := by
      cases hf : find_right lessR b n.r with
      | none =>
        exact absurd rfl ((find_right_none_iff lessR LR b n.r hb2).1 hf n hnr)
      | some m =>
        obtain ⟨hm, hmr⟩ := find_right_some lessR LR b n.r m hb2 hf
        rw [bst_key_inj DNode.r lessR LR b.rt hb2 m hm n hnr hmr]
    obtain ⟨b'', he, hinv', hs, hp, su1, su2, u1, u2⟩ :=
      erase_right_at_inv lessL lessR LL LR b n hi hnr
    refine ⟨b'', ?_, ?_, ?_, ?_⟩
    · rw [erase_right, hfind]
      show Option.map (fun b' => (true, b')) (erase_right_at lessL lessR b n)
        = _
      rw [he]
      rfl
    · exact (find_right_none_iff lessR LR b'' n.r hinv'.2.2.1).2 u2
    · exact (find_left_none_iff lessL LL b'' n.l hinv'.1).2 u1
    · omega

theorem C2_erase_removes_pair_both_sides_witness :
    LawfulLess natLt ∧
    Inv natLt natLt
      (⟨2, Tree.node .leaf (⟨1, 10, 5, 5⟩ : DNode Nat Nat)
            (Tree.node .leaf ⟨2, 20, 3, 3⟩ .leaf),
        Tree.node .leaf ⟨1, 10, 5, 5⟩
            (Tree.node .leaf ⟨2, 20, 3, 3⟩ .leaf)⟩ : bimap Nat Nat) ∧
    (⟨1, 10, 5, 5⟩ : DNode Nat Nat) ∈
      (Tree.node Tree.leaf (⟨1, 10, 5, 5⟩ : DNode Nat Nat)
        (Tree.node Tree.leaf ⟨2, 20, 3, 3⟩ Tree.leaf)).inorder ∧
    ((∃ b', erase_left natLt natLt
        (⟨2, Tree.node .leaf (⟨1, 10, 5, 5⟩ : DNode Nat Nat)
              (Tree.node .leaf ⟨2, 20, 3, 3⟩ .leaf),
          Tree.node .leaf ⟨1, 10, 5, 5⟩
              (Tree.node .leaf ⟨2, 20, 3, 3⟩ .leaf)⟩ : bimap Nat Nat)
        (⟨1, 10, 5, 5⟩ : DNode Nat Nat).l = some (true, b')
       ∧ find_left natLt b' (⟨1, 10, 5, 5⟩ : DNode Nat Nat).l = none
       ∧ find_right natLt b' (⟨1, 10, 5, 5⟩ : DNode Nat Nat).r = none
       ∧ b'.sz + 1 = 2)
    ∧ (∃ b'', erase_right natLt natLt
        (⟨2, Tree.node .leaf (⟨1, 10, 5, 5⟩ : DNode Nat Nat)
              (Tree.node .leaf ⟨2, 20, 3, 3⟩ .leaf),
          Tree.node .leaf ⟨1, 10, 5, 5⟩
              (Tree.node .leaf ⟨2, 20, 3, 3⟩ .leaf)⟩ : bimap Nat Nat)
        (⟨1, 10, 5, 5⟩ : DNode Nat Nat).r = some (true, b'')
       ∧ find_right natLt b'' (⟨1, 10, 5, 5⟩ : DNode Nat Nat).r = none
       ∧ find_left natLt b'' (⟨1, 10, 5, 5⟩ : DNode Nat Nat).l = none
       ∧ b''.sz + 1 = 2)) :=
  ⟨lawful_natLt, by decide, by decide,
   C2_erase_removes_pair_both_sides natLt natLt lawful_natLt lawful_natLt
     _ _ (by decide) (by decide)⟩

/-- C3: when `k` is absent on the left side and some stored pair
`(other_l, d)` holds the default-constructed R-value `d`,
`at_left_or_default(k)` erases that unrelated pair, inserts `(k, d)`, and
returns `d`: afterwards `other_l` is gone from the left side and `k` maps to
`d`.  Symmetrically for `at_right_or_default` with the default L-value. -/
theorem C3_at_or_default_evicts_default_holder
    (lessL : α → α → Bool) (lessR : β → β → Bool)
    (LL : LawfulLess lessL) (LR : LawfulLess lessR) :
    (∀ (b : bimap α β) (k : α) (d : β) (m : DNode α β) (pl pr : Nat),
      Inv lessL lessR b →
      find_left lessL b k = none →
      find_right lessR b d = some m →
      ∃ b2, at_left_or_default lessL lessR b k d pl pr = some (d, b2)
        ∧ Inv lessL lessR b2
        ∧ find_left lessL b2 m.l = none
        ∧ (∃ n2, find_left lessL b2 k = some n2 ∧ n2.r = d))
    ∧ (∀ (b : bimap α β) (k : β) (d : α) (m : DNode α β) (pl pr : Nat),
      Inv lessL lessR b →
      find_right lessR b k = none →
      find_left lessL b d = some m →
      ∃ b2, at_right_or_default lessL lessR b k d pl pr = some (d, b2)
        ∧ Inv lessL lessR b2
        ∧ find_right lessR b2 m.r = none
        ∧ (∃ n2, find_right lessR b2 k = some n2 ∧ n2.l = d)) := by
  constructor
  · intro b k d m pl pr hi hfl hfr
    obtain ⟨hb1, hh1, hb2, hh2, hperm, hsz⟩ := hi
    obtain ⟨hmr, hmrd⟩ := find_right_some lessR LR b d m hb2 hfr
    obtain ⟨b1, he1, hinv1, hs1, hp1, su1, su2, u1, u2⟩ :=
      erase_right_at_inv lessL lessR LL LR b m
        ⟨hb1, hh1, hb2, hh2, hperm, hsz⟩ hmr
    have hfl1 : find_left lessL b1 k = none := by
      apply (find_left_none_iff lessL LL b1 k hinv1.1).2
      intro x hx
      exact (find_left_none_iff lessL LL b k hb1).1 hfl x (su1 x hx)
    have hfr1 : find_right lessR b1 d = none := by
      apply (find_right_none_iff lessR LR b1 d hinv1.2.2.1).2
      intro x hx
      rw [← hmrd]
      exact u2 x hx
    have hins := insert_success lessL lessR b1 k d pl pr hfl1 hfr1
    obtain ⟨hinv2, hp2, hsz2⟩ :=
      insert_inv lessL lessR LL LR b1 k d pl pr hinv1 hfl1 hfr1
    refine ⟨(insert lessL lessR b1 k d pl pr).2, ?_, hinv2, ?_, ?_⟩
    · simp only [at_left_or_default, hfl, hfr, he1, hins]
    · apply (find_left_none_iff lessL LL _ m.l hinv2.1).2
      intro x hx
      rcases List.mem_cons.1 (hp2.mem_iff.1 hx) with rfl | hx1
      · have hml : m ∈ b.lt.inorder := hperm.mem_iff.2 hmr
        have hne := (find_left_none_iff lessL LL b k hb1).1 hfl m hml
        exact fun hh => hne hh.symm
      · exact u1 x hx1
    · have hnew_mem : (⟨k, d, pl, pr⟩ : DNode α β)
          ∈ (insert lessL lessR b1 k d pl pr).2.lt.inorder :=
        hp2.mem_iff.2 (List.mem_cons_self _ _)
      cases hf2 : find_left lessL (insert lessL lessR b1 k d pl pr).2 k with
      | none =>
        exact absurd rfl
          ((find_left_none_iff lessL LL _ k hinv2.1).1 hf2 _ hnew_mem)
      | some n2 =>
        obtain ⟨hn2m, hn2l⟩ := find_left_some lessL LL _ k n2 hinv2.1 hf2
        have he : n2 = ⟨k, d, pl, pr⟩ :=
          bst_key_inj DNode.l lessL LL _ hinv2.1 n2 hn2m _ hnew_mem
            (by rw [hn2l])
        exact ⟨n2, rfl, by rw [he]⟩
  · intro b k d m pl pr hi hfr hfl
    obtain ⟨hb1, hh1, hb2, hh2, hperm, hsz⟩ := hi
    obtain ⟨hml, hmld⟩ := find_left_some lessL LL b d m hb1 hfl
    obtain ⟨b1, he1, hinv1, hs1, hp1, su1, su2, u1, u2⟩ :=
      erase_left_at_inv lessL lessR LL LR b m
        ⟨hb1, hh1, hb2, hh2, hperm, hsz⟩ hml
    have hfr1 : find_right lessR b1 k = none := by
      apply (find_right_none_iff lessR LR b1 k hinv1.2.2.1).2
      intro x hx
      exact (find_right_none_iff lessR LR b k hb2).1 hfr x (su2 x hx)
    have hfl1 : find_left lessL b1 d = none := by
      apply (find_left_none_iff lessL LL b1 d hinv1.1).2
      intro x hx
      rw [← hmld]
      exact u1 x hx
    have hins := insert_success lessL lessR b1 d k pl pr hfl1 hfr1
    obtain ⟨hinv2, hp2, hsz2⟩ :=
      insert_inv lessL lessR LL LR b1 d k pl pr hinv1 hfl1 hfr1
    have hrtperm : (insert lessL lessR b1 d k pl pr).2.rt.inorder.Perm
        ((⟨d, k, pl, pr⟩ : DNode α β) :: b1.rt.inorder) :=
      hinv2.2.2.2.2.1.symm.trans (hp2.trans (hinv1.2.2.2.2.1.cons _))
    refine ⟨(insert lessL lessR b1 d k pl pr).2, ?_, hinv2, ?_, ?_⟩
    · simp only [at_right_or_default, hfr, hfl, he1, hins]
    · apply (find_right_none_iff lessR LR _ m.r hinv2.2.2.1).2
      intro x hx
      rcases List.mem_cons.1 (hrtperm.mem_iff.1 hx) with rfl | hx1
      · have hmr : m ∈ b.rt.inorder := hperm.mem_iff.1 hml
        have hne := (find_right_none_iff lessR LR b k hb2).1 hfr m hmr
        exact fun hh => hne hh.symm
      · exact u2 x hx1
    · have hnew_mem : (⟨d, k, pl, pr⟩ : DNode α β)
          ∈ (insert lessL lessR b1 d k pl pr).2.rt.inorder :=
        hrtperm.mem_iff.2 (List.mem_cons_self _ _)
      cases hf2 : find_right lessR (insert lessL lessR b1 d k pl pr).2 k with
      | none =>
        exact absurd rfl
          ((find_right_none_iff lessR LR _ k hinv2.2.2.1).1 hf2 _ hnew_mem)
      | some n2 =>
        obtain ⟨hn2m, hn2r⟩ :=
          find_right_some lessR LR _ k n2 hinv2.2.2.1 hf2
        have he : n2 = ⟨d, k, pl, pr⟩ :=
          bst_key_inj DNode.r lessR LR _ hinv2.2.2.1 n2 hn2m _ hnew_mem
            (by rw [hn2r])
        exact ⟨n2, rfl, by rw [he]⟩

theorem C3_at_or_default_evicts_default_holder_witness :
    LawfulLess natLt ∧
    Inv natLt natLt
      (⟨1, Tree.node .leaf (⟨5, 0, 2, 2⟩ : DNode Nat Nat) .leaf,
        Tree.node .leaf ⟨5, 0, 2, 2⟩ .leaf⟩ : bimap Nat Nat) ∧
    find_left natLt
      (⟨1, Tree.node .leaf (⟨5, 0, 2, 2⟩ : DNode Nat Nat) .leaf,
        Tree.node .leaf ⟨5, 0, 2, 2⟩ .leaf⟩ : bimap Nat Nat) 3 = none ∧
    find_right natLt
      (⟨1, Tree.node .leaf (⟨5, 0, 2, 2⟩ : DNode Nat Nat) .leaf,
        Tree.node .leaf ⟨5, 0, 2, 2⟩ .leaf⟩ : bimap Nat Nat) 0
      = some ⟨5, 0, 2, 2⟩ ∧
    (∃ b2, at_left_or_default natLt natLt
        (⟨1, Tree.node .leaf (⟨5, 0, 2, 2⟩ : DNode Nat Nat) .leaf,
          Tree.node .leaf ⟨5, 0, 2, 2⟩ .leaf⟩ : bimap Nat Nat) 3 0 1 1
        = some (0, b2)
      ∧ Inv natLt natLt b2
      ∧ find_left natLt b2 (⟨5, 0, 2, 2⟩ : DNode Nat Nat).l = none
      ∧ (∃ n2, find_left natLt b2 3 = some n2 ∧ n2.r = 0)) :=
  ⟨lawful_natLt, by decide, by decide, by decide,
   (C3_at_or_default_evicts_default_holder natLt natLt
      lawful_natLt lawful_natLt).1
     _ 3 0 ⟨5, 0, 2, 2⟩ 1 1 (by decide) (by decide) (by decide)⟩

/-- C6 (code-bug evidence): on the valid treap holding keys 1 (priority 5)
and 3 (priority 3) — shaped root 1 with right child 3 — removing the absent
key 2 does return the end iterator, but does NOT leave the tree as it was:
the not-found early return skips the re-merge of the two split parts, and
the head node still aims at the original root, which now carries only key 1;
key 3 is lost (and its node leaked).  Removing the absent key 4 (greater
than every stored key) makes `removed_node->left` a null-pointer
dereference (the modelled undefined behaviour, `none`). -/
theorem C6_remove_absent_corrupts_tree :
    bst Prod.fst natLt
      (Tree.node .leaf ((1 : Nat), (5 : Nat))
        (Tree.node .leaf (3, 3) .leaf)) = true
    ∧ heapOk Prod.snd
      (Tree.node .leaf ((1 : Nat), (5 : Nat))
        (Tree.node .leaf (3, 3) .leaf)) = true
    ∧ (∀ x ∈ (Tree.node .leaf ((1 : Nat), (5 : Nat))
        (Tree.node .leaf (3, 3) .leaf)).inorder, x.1 ≠ 2)
    ∧ removeT Prod.fst Prod.snd natLt
        (Tree.node .leaf ((1 : Nat), (5 : Nat))
          (Tree.node .leaf (3, 3) .leaf)) 2
      = some (none, Tree.node .leaf (1, 5) .leaf)
    ∧ (Tree.node .leaf ((1 : Nat), (5 : Nat)) .leaf).inorder
        ≠ (Tree.node .leaf ((1 : Nat), (5 : Nat))
            (Tree.node .leaf (3, 3) .leaf)).inorder
    ∧ removeT Prod.fst Prod.snd natLt
        (Tree.node .leaf ((1 : Nat), (5 : Nat))
          (Tree.node .leaf (3, 3) .leaf)) 4
      = none := by
  refine ⟨by decide, by decide, by decide, by decide, by decide, by decide⟩

/-- The concrete container for the C8 evidence: pairs (0,10) and (1,11),
left-tree shape root 0 (priority 1) with right child 1 (priority 0). -/
def exC8 : bimap Nat Nat :=
  ⟨2, Tree.node .leaf ⟨0, 10, 1, 1⟩ (Tree.node .leaf ⟨1, 11, 0, 0⟩ .leaf),
      Tree.node .leaf ⟨0, 10, 1, 1⟩ (Tree.node .leaf ⟨1, 11, 0, 0⟩ .leaf)⟩

/-- C8 (code-bug evidence): on the valid two-pair container `exC8` no stored
L-key is strictly greater than 1, so `upper_bound_left(1)` should be
`end_left()`; the code instead returns an iterator to the stored key 1
itself (after the equal-keys check, the leftmost node of the right split
part has neither a surviving parent link nor a right child, so `upper_b` is
left pointing at the key it was supposed to skip).  The container's pair
sequence is unchanged by the call (that part of the claim holds). -/
theorem C8_upper_bound_returns_wrong_iterator :
    Inv natLt natLt exC8
    ∧ (∀ n ∈ exC8.lt.inorder, natLt 1 n.l = false)
    ∧ (upper_bound_left natLt exC8 1).1 = some ⟨1, 11, 0, 0⟩
    ∧ (upper_bound_left natLt exC8 1).2.lt.inorder = exC8.lt.inorder
    ∧ (upper_bound_left natLt exC8 1).2.sz = exC8.sz
    ∧ (upper_bound_left natLt exC8 1).2.rt = exC8.rt := by
  refine ⟨by decide, by decide, by decide, ?_, rfl, rfl⟩
  show (upper_bound DNode.l DNode.pl natLt exC8.lt 1).2.inorder
    = exC8.lt.inorder
  exact upper_bound_state DNode.l DNode.pl natLt exC8.lt 1

end Claims

section C9Support

variable {α β : Type} (lessL : α → α → Bool) (lessR : β → β → Bool)

theorem inv_empty : Inv lessL lessR (⟨0, .leaf, .leaf⟩ : bimap α β) :=
  ⟨rfl, rfl, rfl, rfl, List.Perm.refl _, rfl⟩

/-- The insert loop, started from a state whose keys are disjoint from the
supplied pairs' (all L-keys pairwise distinct, all R-keys pairwise
distinct): every insert succeeds, well-formedness is preserved, and the
resulting pair multiset is the old one plus the supplied pairs. -/
theorem build_from_spec (LL : LawfulLess lessL) (LR : LawfulLess lessR) :
    ∀ (pairs : List (α × β)) (ps : List (Nat × Nat)) (b0 : bimap α β),
      Inv lessL lessR b0 →
      (b0.lt.inorder.map DNode.l ++ pairs.map Prod.fst).Pairwise
        (fun a b => a ≠ b) →
      (b0.rt.inorder.map DNode.r ++ pairs.map Prod.snd).Pairwise
        (fun a b => a ≠ b) →
      Inv lessL lessR (build_from lessL lessR pairs ps b0)
      ∧ (to_pairs (build_from lessL lessR pairs ps b0)).Perm
          (to_pairs b0 ++ pairs) := by
  intro pairs
  induction pairs with
  | nil =>
    intro ps b0 hi h1 h2
    refine ⟨by simpa [build_from] using hi, ?_⟩
    simp [build_from]
  | cons pr rest ih =>
    obtain ⟨l, r⟩ := pr
    intro ps b0 hi h1 h2
    have hne : Symmetric (fun a b : α => a ≠ b) := fun a b h he => h he.symm
    have hneR : Symmetric (fun a b : β => a ≠ b) := fun a b h he => h he.symm
    have hfl : find_left lessL b0 l = none := by
      apply (find_left_none_iff lessL LL b0 l hi.1).2
      intro x hx he
      have hcross := (List.pairwise_append.1 h1).2.2
      exact hcross x.l (List.mem_map_of_mem DNode.l hx) l (by simp) he
    have hfr : find_right lessR b0 r = none := by
      apply (find_right_none_iff lessR LR b0 r hi.2.2.1).2
      intro x hx he
      have hcross := (List.pairwise_append.1 h2).2.2
      exact hcross x.r (List.mem_map_of_mem DNode.r hx) r (by simp) he
    obtain ⟨hinv1, hp1, hsz1⟩ :=
      insert_inv lessL lessR LL LR b0 l r
        (ps.headD (0, 0)).1 (ps.headD (0, 0)).2 hi hfl hfr
    set b1 := (insert lessL lessR b0 l r
        (ps.headD (0, 0)).1 (ps.headD (0, 0)).2).2 with hb1
    have hkL : (b1.lt.inorder.map DNode.l ++ rest.map Prod.fst).Pairwise
        (fun a b : α => a ≠ b) := by
      have e1 : (b1.lt.inorder.map DNode.l ++ rest.map Prod.fst).Perm
          (b0.lt.inorder.map DNode.l ++ (l :: rest.map Prod.fst)) := by
        refine List.Perm.trans ?_ List.perm_middle.symm
        exact (hp1.map DNode.l).append_right _
      refine (e1.pairwise_iff (fun h he => h he.symm)).2 ?_
      simpa using h1
    have hkR : (b1.rt.inorder.map DNode.r ++ rest.map Prod.snd).Pairwise
        (fun a b : β => a ≠ b) := by
      have hp1r : b1.rt.inorder.Perm
          ((⟨l, r, (ps.headD (0, 0)).1, (ps.headD (0, 0)).2⟩ : DNode α β)
            :: b0.rt.inorder) :=
        hinv1.2.2.2.2.1.symm.trans (hp1.trans (hi.2.2.2.2.1.cons _))
      have e1 : (b1.rt.inorder.map DNode.r ++ rest.map Prod.snd).Perm
          (b0.rt.inorder.map DNode.r ++ (r :: rest.map Prod.snd)) := by
        refine List.Perm.trans ?_ List.perm_middle.symm
        exact (hp1r.map DNode.r).append_right _
      refine (e1.pairwise_iff (fun h he => h he.symm)).2 ?_
      simpa using h2
    obtain ⟨hinv2, hp2⟩ := ih ps.tail b1 hinv1 hkL hkR
    have hstep : build_from lessL lessR ((l, r) :: rest) ps b0
        = build_from lessL lessR rest ps.tail b1 := by
      rw [hb1]
      simp only [build_from]
    constructor
    · rw [hstep]
      exact hinv2
    · rw [hstep]
      refine hp2.trans ?_
      have hpair : (to_pairs b1).Perm ((l, r) :: to_pairs b0) := by
        have := hp1.map (fun n : DNode α β => (n.l, n.r))
        simpa [to_pairs] using this
      refine (hpair.append_right rest).trans ?_
      show ((l, r) :: (to_pairs b0 ++ rest)).Perm _
      exact List.perm_middle.symm

end C9Support

section C9Eq

variable {α β : Type} [DecidableEq α] [DecidableEq β]

theorem pairs_walk_eq_of_map_eq :
    ∀ l1 l2 : List (DNode α β),
      l1.map (fun n => (n.l, n.r)) = l2.map (fun n => (n.l, n.r)) →
      pairs_walk_eq l1 l2 = true := by
  intro l1
  induction l1 with
  | nil =>
    intro l2 h
    cases l2 with
    | nil => rfl
    | cons y ys => simp at h
  | cons x xs ih =>
    intro l2 h
    cases l2 with
    | nil => simp at h
    | cons y ys =>
      simp only [List.map_cons, List.cons.injEq, Prod.mk.injEq] at h
      obtain ⟨⟨h1, h2⟩, h3⟩ := h
      simp [pairs_walk_eq, h1, h2, ih ys h3]

theorem map_eq_of_pairs_walk_eq :
    ∀ l1 l2 : List (DNode α β),
      pairs_walk_eq l1 l2 = true →
      l1.length = l2.length →
      l1.map (fun n => (n.l, n.r)) = l2.map (fun n => (n.l, n.r)) := by
  intro l1
  induction l1 with
  | nil =>
    intro l2 h hlen
    cases l2 with
    | nil => rfl
    | cons y ys => simp at hlen
  | cons x xs ih =>
    intro l2 h hlen
    cases l2 with
    | nil => simp at hlen
    | cons y ys =>
      rw [pairs_walk_eq] at h
      by_cases hxy : x.l = y.l ∧ x.r = y.r
      · rw [if_pos hxy] at h
        simp only [List.map_cons, hxy.1, hxy.2]
        simp only [List.length_cons, Nat.add_right_cancel_iff] at hlen
        rw [ih ys h hlen]
      · rw [if_neg hxy] at h
        cases h

end C9Eq

section Claims2

variable {α β : Type}

/-- C9: any two containers built by inserting the same finite set of pairs
(pairwise-distinct L-keys, pairwise-distinct R-keys) in any two orders (and
with any random priority draws) compare equal under `operator==`; moreover,
on well-formed states, `operator==` returns true exactly when the sizes
match and the simultaneous L-sorted walk finds every (L, R) pair equal on
both sides (i.e. the two L-ordered pair sequences coincide). -/
theorem C9_equality_insertion_order_independent [DecidableEq α]
    [DecidableEq β]
    (lessL : α → α → Bool) (lessR : β → β → Bool)
    (LL : LawfulLess lessL) (LR : LawfulLess lessR) :
    (∀ (pairs1 pairs2 : List (α × β)) (ps1 ps2 : List (Nat × Nat)),
      pairs1.Perm pairs2 →
      (pairs1.map Prod.fst).Pairwise (fun a b => a ≠ b) →
      (pairs1.map Prod.snd).Pairwise (fun a b => a ≠ b) →
      beq (build_from lessL lessR pairs1 ps1 ⟨0, .leaf, .leaf⟩)
          (build_from lessL lessR pairs2 ps2 ⟨0, .leaf, .leaf⟩) = true)
    ∧ (∀ a b : bimap α β, Inv lessL lessR a → Inv lessL lessR b →
        (beq a b = true ↔ a.sz = b.sz ∧ to_pairs a = to_pairs b)) := by
  have hiff : ∀ a b : bimap α β, Inv lessL lessR a → Inv lessL lessR b →
      (beq a b = true ↔ a.sz = b.sz ∧ to_pairs a = to_pairs b) := by
    intro a b hia hib
    have hlena : a.lt.inorder.length = a.sz := by
      rw [hia.2.2.2.2.2, Tree.count]
    have hlenb : b.lt.inorder.length = b.sz := by
      rw [hib.2.2.2.2.2, Tree.count]
    constructor
    · intro h
      rw [beq] at h
      by_cases hsz : a.sz ≠ b.sz
      · rw [if_pos hsz] at h
        cases h
      · rw [if_neg hsz] at h
        push_neg at hsz
        refine ⟨hsz, ?_⟩
        exact map_eq_of_pairs_walk_eq _ _ h (by omega)
    · rintro ⟨hsz, hp⟩
      rw [beq, if_neg (by omega)]
      exact pairs_walk_eq_of_map_eq _ _ hp
  refine ⟨?_, hiff⟩
  intro pairs1 pairs2 ps1 ps2 hperm hdL hdR
  have hne : Symmetric (fun a b : α => a ≠ b) := fun a b h he => h he.symm
  have hneR : Symmetric (fun a b : β => a ≠ b) := fun a b h he => h he.symm
  obtain ⟨hi1, hp1⟩ := build_from_spec lessL lessR LL LR pairs1 ps1
    ⟨0, .leaf, .leaf⟩ (inv_empty lessL lessR)
    (by simpa [Tree.inorder] using hdL)
    (by simpa [Tree.inorder] using hdR)
  obtain ⟨hi2, hp2⟩ := build_from_spec lessL lessR LL LR pairs2 ps2
    ⟨0, .leaf, .leaf⟩ (inv_empty lessL lessR)
    (by
      simpa [Tree.inorder] using
        (((hperm.map Prod.fst).pairwise_iff (fun h he => h he.symm)).1 hdL))
    (by
      simpa [Tree.inorder] using
        (((hperm.map Prod.snd).pairwise_iff (fun h he => h he.symm)).1 hdR))
  set b1 := build_from lessL lessR pairs1 ps1
    (⟨0, .leaf, .leaf⟩ : bimap α β) with hb1
  set b2 := build_from lessL lessR pairs2 ps2
    (⟨0, .leaf, .leaf⟩ : bimap α β) with hb2
  have hpp : (to_pairs b1).Perm (to_pairs b2) := by
    refine hp1.trans (List.Perm.trans ?_ hp2.symm)
    simpa [to_pairs, Tree.inorder] using hperm
  have hs1 : (to_pairs b1).Pairwise (fun p q : α × β => lessL p.1 q.1 = true) := by
    unfold to_pairs
    exact (bst_pairwise DNode.l lessL LL b1.lt hi1.1).map _ (fun a b h => h)
  have hs2 : (to_pairs b2).Pairwise (fun p q : α × β => lessL p.1 q.1 = true) := by
    unfold to_pairs
    exact (bst_pairwise DNode.l lessL LL b2.lt hi2.1).map _ (fun a b h => h)
  haveI : IsAntisymm (α × β) (fun p q : α × β => lessL p.1 q.1 = true) :=
    ⟨fun p q h1 h2 =>
      absurd (LL.lt_trans _ _ _ h1 h2) (by simp [LL.irrefl])⟩
  have heq : to_pairs b1 = to_pairs b2 :=
    List.eq_of_perm_of_sorted hpp hs1 hs2
  have hsz : b1.sz = b2.sz := by
    have l1 : b1.sz = (to_pairs b1).length := by
      rw [hi1.2.2.2.2.2, to_pairs, List.length_map, Tree.count]
    have l2 : b2.sz = (to_pairs b2).length := by
      rw [hi2.2.2.2.2.2, to_pairs, List.length_map, Tree.count]
    rw [l1, l2, heq]
  exact (hiff b1 b2 hi1 hi2).2 ⟨hsz, heq⟩

theorem C9_equality_insertion_order_independent_witness :
    LawfulLess natLt ∧
    ([((1 : Nat), (10 : Nat)), (2, 20)]).Perm [(2, 20), (1, 10)] ∧
    (([((1 : Nat), (10 : Nat)), (2, 20)]).map Prod.fst).Pairwise
      (fun a b => a ≠ b) ∧
    (([((1 : Nat), (10 : Nat)), (2, 20)]).map Prod.snd).Pairwise
      (fun a b => a ≠ b) ∧
    beq (build_from natLt natLt [(1, 10), (2, 20)] [(5, 6), (1, 2)]
          ⟨0, .leaf, .leaf⟩)
        (build_from natLt natLt [(2, 20), (1, 10)] [(9, 1), (4, 8)]
          ⟨0, .leaf, .leaf⟩) = true :=
  ⟨lawful_natLt, by decide, by decide, by decide,
   (C9_equality_insertion_order_independent natLt natLt
      lawful_natLt lawful_natLt).1
     [(1, 10), (2, 20)] [(2, 20), (1, 10)] [(5, 6), (1, 2)] [(9, 1), (4, 8)]
     (by decide) (by decide) (by decide)⟩

end Claims2

section C4Support

variable {α β : Type} (lessL : α → α → Bool) (lessR : β → β → Bool)

theorem invW_empty : InvW lessL lessR (⟨0, .leaf, .leaf⟩ : bimap α β) :=
  ⟨rfl, rfl, rfl, rfl, List.Perm.refl _, Nat.le_refl _⟩

theorem erase_left_at_invW (LL : LawfulLess lessL) (LR : LawfulLess lessR)
    (b : bimap α β) (n : DNode α β) (hw : InvW lessL lessR b)
    (hn : n ∈ b.lt.inorder) :
    ∀ b', erase_left_at lessL lessR b n = some b' → InvW lessL lessR b' := by
  obtain ⟨hb1, hh1, hb2, hh2, hperm, hsz⟩ := hw
  obtain ⟨b'', he, hs, c1, c2, c3, c4, q1, q2, s1, s2, u1, u2⟩ :=
    erase_left_at_spec lessL lessR LL LR b n hb1 hh1 hb2 hh2 hperm hn
  intro b' hb'
  rw [he, Option.some.injEq] at hb'
  subst hb'
  refine ⟨c1, c2, c3, c4, (q1.symm.trans (hperm.trans q2)).cons_inv, ?_⟩
  have hq := q1.length_eq
  rw [List.length_cons] at hq
  rw [Tree.count] at hsz ⊢
  rw [hs]
  omega

theorem erase_right_at_invW (LL : LawfulLess lessL) (LR : LawfulLess lessR)
    (b : bimap α β) (n : DNode α β) (hw : InvW lessL lessR b)
    (hn : n ∈ b.rt.inorder) :
    ∀ b', erase_right_at lessL lessR b n = some b' → InvW lessL lessR b' := by
  obtain ⟨hb1, hh1, hb2, hh2, hperm, hsz⟩ := hw
  obtain ⟨b'', he, hs, c1, c2, c3, c4, q1, q2, s1, s2, u1, u2⟩ :=
    erase_right_at_spec lessL lessR LL LR b n hb1 hh1 hb2 hh2 hperm hn
  intro b' hb'
  rw [he, Option.some.injEq] at hb'
  subst hb'
  refine ⟨c1, c2, c3, c4, (q1.symm.trans (hperm.trans q2)).cons_inv, ?_⟩
  have hq := q1.length_eq
  rw [List.length_cons] at hq
  rw [Tree.count] at hsz ⊢
  rw [hs]
  omega

theorem erase_left_invW (LL : LawfulLess lessL) (LR : LawfulLess lessR)
    (b : bimap α β) (k : α) (p : Bool × bimap α β)
    (hw : InvW lessL lessR b)
    (he : erase_left lessL lessR b k = some p) : InvW lessL lessR p.2 := by
  rw [erase_left] at he
  cases hf : find_left lessL b k with
  | none =>
    rw [hf, Option.some.injEq] at he
    rw [← he]
    exact hw
  | some n =>
    rw [hf] at he
    dsimp only at he
    obtain ⟨hn, -⟩ := find_left_some lessL LL b k n hw.1 hf
    cases hea : erase_left_at lessL lessR b n with
    | none => rw [hea] at he; cases he
    | some b' =>
      rw [hea, Option.map_some', Option.some.injEq] at he
      rw [← he]
      exact erase_left_at_invW lessL lessR LL LR b n
        ⟨hw.1, hw.2.1, hw.2.2.1, hw.2.2.2.1, hw.2.2.2.2.1, hw.2.2.2.2.2⟩
        hn b' hea

theorem erase_right_invW (LL : LawfulLess lessL) (LR : LawfulLess lessR)
    (b : bimap α β) (k : β) (p : Bool × bimap α β)
    (hw : InvW lessL lessR b)
    (he : erase_right lessL lessR b k = some p) : InvW lessL lessR p.2 := by
  rw [erase_right] at he
  cases hf : find_right lessR b k with
  | none =>
    rw [hf, Option.some.injEq] at he
    rw [← he]
    exact hw
  | some n =>
    rw [hf] at he
    dsimp only at he
    obtain ⟨hn, -⟩ := find_right_some lessR LR b k n hw.2.2.1 hf
    cases hea : erase_right_at lessL lessR b n with
    | none => rw [hea] at he; cases he
    | some b' =>
      rw [hea, Option.map_some', Option.some.injEq] at he
      rw [← he]
      exact erase_right_at_invW lessL lessR LL LR b n
        ⟨hw.1, hw.2.1, hw.2.2.1, hw.2.2.2.1, hw.2.2.2.2.1, hw.2.2.2.2.2⟩
        hn b' hea

theorem at_left_or_default_invW (LL : LawfulLess lessL) (LR : LawfulLess lessR)
    (b : bimap α β) (k : α) (d : β) (pl pr : Nat) (p : β × bimap α β)
    (hw : InvW lessL lessR b)
    (he : at_left_or_default lessL lessR b k d pl pr = some p) :
    InvW lessL lessR p.2 := by
  rw [at_left_or_default] at he
  cases hf : find_left lessL b k with
  | some n =>
    rw [hf, Option.some.injEq] at he
    rw [← he]
    exact hw
  | none =>
    rw [hf] at he
    have hstep : ∀ b1 : bimap α β, InvW lessL lessR b1 →
        (match insert lessL lessR b1 k d pl pr with
          | (some n, b2) => some (n.r, b2)
          | (none, _) => none) = some p → InvW lessL lessR p.2 := by
      intro b1 hw1 hm
      cases hins : insert lessL lessR b1 k d pl pr with
      | mk o b2 =>
        rw [hins] at hm
        cases o with
        | none => cases hm
        | some nn =>
          rw [Option.some.injEq] at hm
          have := insert_invW lessL lessR LL LR b1 k d pl pr hw1
          rw [hins] at this
          rw [← hm]
          exact this
    cases hfr : find_right lessR b d with
    | none =>
      rw [hfr] at he
      dsimp only at he
      exact hstep b hw he
    | some m =>
      rw [hfr] at he
      dsimp only at he
      obtain ⟨hm, -⟩ := find_right_some lessR LR b d m hw.2.2.1 hfr
      cases hea : erase_right_at lessL lessR b m with
      | none => rw [hea] at he; cases he
      | some b1 =>
        rw [hea] at he
        dsimp only at he
        exact hstep b1
          (erase_right_at_invW lessL lessR LL LR b m hw hm b1 hea) he

theorem at_right_or_default_invW (LL : LawfulLess lessL)
    (LR : LawfulLess lessR)
    (b : bimap α β) (k : β) (d : α) (pl pr : Nat) (p : α × bimap α β)
    (hw : InvW lessL lessR b)
    (he : at_right_or_default lessL lessR b k d pl pr = some p) :
    InvW lessL lessR p.2 := by
  rw [at_right_or_default] at he
  cases hf : find_right lessR b k with
  | some n =>
    rw [hf, Option.some.injEq] at he
    rw [← he]
    exact hw
  | none =>
    rw [hf] at he
    have hstep : ∀ b1 : bimap α β, InvW lessL lessR b1 →
        (match insert lessL lessR b1 d k pl pr with
          | (some n, b2) => some (n.l, b2)
          | (none, _) => none) = some p → InvW lessL lessR p.2 := by
      intro b1 hw1 hm
      cases hins : insert lessL lessR b1 d k pl pr with
      | mk o b2 =>
        rw [hins] at hm
        cases o with
        | none => cases hm
        | some nn =>
          rw [Option.some.injEq] at hm
          have := insert_invW lessL lessR LL LR b1 d k pl pr hw1
          rw [hins] at this
          rw [← hm]
          exact this
    cases hfl : find_left lessL b d with
    | none =>
      rw [hfl] at he
      dsimp only at he
      exact hstep b hw he
    | some m =>
      rw [hfl] at he
      dsimp only at he
      obtain ⟨hm, -⟩ := find_left_some lessL LL b d m hw.1 hfl
      cases hea : erase_left_at lessL lessR b m with
      | none => rw [hea] at he; cases he
      | some b1 =>
        rw [hea] at he
        dsimp only at he
        exact hstep b1
          (erase_left_at_invW lessL lessR LL LR b m hw hm b1 hea) he

theorem lower_bound_left_invW (LL : LawfulLess lessL)
    (b : bimap α β) (k : α) (hw : InvW lessL lessR b) :
    InvW lessL lessR (lower_bound_left lessL b k).2 := by
  obtain ⟨hb1, hh1, hb2, hh2, hperm, hsz⟩ := hw
  have hio := lower_bound_state DNode.l DNode.pl lessL b.lt k
  refine ⟨?_, ?_, hb2, hh2, ?_, ?_⟩
  · show bst DNode.l lessL (lower_bound DNode.l DNode.pl lessL b.lt k).2
      = true
    simp only [lower_bound]
    exact bst_merge_split DNode.l DNode.pl lessL LL k b.lt hb1
  · show heapOk DNode.pl (lower_bound DNode.l DNode.pl lessL b.lt k).2 = true
    simp only [lower_bound]
    exact heap_merge_split DNode.l DNode.pl lessL k b.lt hh1
  · show ((lower_bound DNode.l DNode.pl lessL b.lt k).2.inorder).Perm
      b.rt.inorder
    rw [hio]
    exact hperm
  · show Tree.count (lower_bound DNode.l DNode.pl lessL b.lt k).2 ≤ b.sz
    rw [Tree.count, hio]
    exact hsz

theorem lower_bound_right_invW (LR : LawfulLess lessR)
    (b : bimap α β) (k : β) (hw : InvW lessL lessR b) :
    InvW lessL lessR (lower_bound_right lessR b k).2 := by
  obtain ⟨hb1, hh1, hb2, hh2, hperm, hsz⟩ := hw
  have hio := lower_bound_state DNode.r DNode.pr lessR b.rt k
  refine ⟨hb1, hh1, ?_, ?_, ?_, hsz⟩
  · show bst DNode.r lessR (lower_bound DNode.r DNode.pr lessR b.rt k).2
      = true
    simp only [lower_bound]
    exact bst_merge_split DNode.r DNode.pr lessR LR k b.rt hb2
  · show heapOk DNode.pr (lower_bound DNode.r DNode.pr lessR b.rt k).2 = true
    simp only [lower_bound]
    exact heap_merge_split DNode.r DNode.pr lessR k b.rt hh2
  · show b.lt.inorder.Perm
      ((lower_bound DNode.r DNode.pr lessR b.rt k).2.inorder)
    rw [hio]
    exact hperm

theorem upper_bound_left_invW (LL : LawfulLess lessL)
    (b : bimap α β) (k : α) (hw : InvW lessL lessR b) :
    InvW lessL lessR (upper_bound_left lessL b k).2 := by
  obtain ⟨hb1, hh1, hb2, hh2, hperm, hsz⟩ := hw
  have hio := upper_bound_state DNode.l DNode.pl lessL b.lt k
  refine ⟨?_, ?_, hb2, hh2, ?_, ?_⟩
  · show bst DNode.l lessL (upper_bound DNode.l DNode.pl lessL b.lt k).2
      = true
    rw [upper_bound_snd]
    exact bst_merge_split DNode.l DNode.pl lessL LL k b.lt hb1
  · show heapOk DNode.pl (upper_bound DNode.l DNode.pl lessL b.lt k).2 = true
    rw [upper_bound_snd]
    exact heap_merge_split DNode.l DNode.pl lessL k b.lt hh1
  · show ((upper_bound DNode.l DNode.pl lessL b.lt k).2.inorder).Perm
      b.rt.inorder
    rw [hio]
    exact hperm
  · show Tree.count (upper_bound DNode.l DNode.pl lessL b.lt k).2 ≤ b.sz
    rw [Tree.count, hio]
    exact hsz

theorem upper_bound_right_invW (LR : LawfulLess lessR)
    (b : bimap α β) (k : β) (hw : InvW lessL lessR b) :
    InvW lessL lessR (upper_bound_right lessR b k).2 := by
  obtain ⟨hb1, hh1, hb2, hh2, hperm, hsz⟩ := hw
  have hio := upper_bound_state DNode.r DNode.pr lessR b.rt k
  refine ⟨hb1, hh1, ?_, ?_, ?_, hsz⟩
  · show bst DNode.r lessR (upper_bound DNode.r DNode.pr lessR b.rt k).2
      = true
    rw [upper_bound_snd]
    exact bst_merge_split DNode.r DNode.pr lessR LR k b.rt hb2
  · show heapOk DNode.pr (upper_bound DNode.r DNode.pr lessR b.rt k).2 = true
    rw [upper_bound_snd]
    exact heap_merge_split DNode.r DNode.pr lessR k b.rt hh2
  · show b.lt.inorder.Perm
      ((upper_bound DNode.r DNode.pr lessR b.rt k).2.inorder)
    rw [hio]
    exact hperm

theorem clear_go_invW (LL : LawfulLess lessL) (LR : LawfulLess lessR) :
    ∀ (fuel : Nat) (b b' : bimap α β), InvW lessL lessR b →
      clear_go lessL lessR fuel b = some b' → InvW lessL lessR b' := by
  intro fuel
  induction fuel with
  | zero =>
    intro b b' hw he
    rw [clear_go] at he
    by_cases hl : b.lt.isLeaf
    · rw [if_pos hl, Option.some.injEq] at he
      rw [← he]
      exact hw
    · rw [if_neg hl] at he
      cases he
  | succ f ih =>
    intro b b' hw he
    rw [clear_go] at he
    cases hl : leftmost b.lt with
    | none =>
      rw [hl, Option.some.injEq] at he
      rw [← he]
      exact hw
    | some n =>
      rw [hl] at he
      dsimp only at he
      have hn : n ∈ b.lt.inorder := by
        rw [leftmost_eq_head] at hl
        exact List.mem_of_mem_head? hl
      cases hea : erase_left_at lessL lessR b n with
      | none => rw [hea] at he; cases he
      | some b1 =>
        rw [hea] at he
        dsimp only at he
        exact ih b1 b' (erase_left_at_invW lessL lessR LL LR b n hw hn b1 hea)
          he

theorem build_from_invW (LL : LawfulLess lessL) (LR : LawfulLess lessR) :
    ∀ (pairs : List (α × β)) (ps : List (Nat × Nat)) (b : bimap α β),
      InvW lessL lessR b → InvW lessL lessR (build_from lessL lessR pairs ps b) := by
  intro pairs
  induction pairs with
  | nil =>
    intro ps b hw
    simpa [build_from] using hw
  | cons pr rest ih =>
    obtain ⟨l, r⟩ := pr
    intro ps b hw
    have hstep : build_from lessL lessR ((l, r) :: rest) ps b
        = build_from lessL lessR rest ps.tail
            (insert lessL lessR b l r (ps.headD (0, 0)).1
              (ps.headD (0, 0)).2).2 := by
      simp only [build_from]
    rw [hstep]
    exact ih ps.tail _
      (insert_invW lessL lessR LL LR b l r _ _ hw)

end C4Support

/-- Reachability of a facade state by a sequence of the public operations,
starting from the default-constructed empty container; two-container
operations require both operands reachable.  The `swap` operation is only
admitted when `useSwap = true`, so `Reach lessL lessR false` is reachability
through every facade operation except `swap`. -/
inductive Reach {α β : Type} (lessL : α → α → Bool) (lessR : β → β → Bool)
    (useSwap : Bool) : bimap α β → Prop where
  | empty : Reach lessL lessR useSwap ⟨0, .leaf, .leaf⟩
  | ins {b : bimap α β} {l : α} {r : β} {pl pr : Nat} :
      Reach lessL lessR useSwap b →
      Reach lessL lessR useSwap (insert lessL lessR b l r pl pr).2
  | erL {b : bimap α β} {k : α} {p : Bool × bimap α β} :
      Reach lessL lessR useSwap b →
      erase_left lessL lessR b k = some p →
      Reach lessL lessR useSwap p.2
  | erR {b : bimap α β} {k : β} {p : Bool × bimap α β} :
      Reach lessL lessR useSwap b →
      erase_right lessL lessR b k = some p →
      Reach lessL lessR useSwap p.2
  | erLIt {b : bimap α β} {n : DNode α β} {b' : bimap α β} :
      Reach lessL lessR useSwap b →
      n ∈ b.lt.inorder →
      erase_left_at lessL lessR b n = some b' →
      Reach lessL lessR useSwap b'
  | erRIt {b : bimap α β} {n : DNode α β} {b' : bimap α β} :
      Reach lessL lessR useSwap b →
      n ∈ b.rt.inorder →
      erase_right_at lessL lessR b n = some b' →
      Reach lessL lessR useSwap b'
  | atL {b : bimap α β} {k : α} {d : β} {pl pr : Nat} {p : β × bimap α β} :
      Reach lessL lessR useSwap b →
      at_left_or_default lessL lessR b k d pl pr = some p →
      Reach lessL lessR useSwap p.2
  | atR {b : bimap α β} {k : β} {d : α} {pl pr : Nat} {p : α × bimap α β} :
      Reach lessL lessR useSwap b →
      at_right_or_default lessL lessR b k d pl pr = some p →
      Reach lessL lessR useSwap p.2
  | lbL {b : bimap α β} {k : α} : Reach lessL lessR useSwap b →
      Reach lessL lessR useSwap (lower_bound_left lessL b k).2
  | ubL {b : bimap α β} {k : α} : Reach lessL lessR useSwap b →
      Reach lessL lessR useSwap (upper_bound_left lessL b k).2
  | lbR {b : bimap α β} {k : β} : Reach lessL lessR useSwap b →
      Reach lessL lessR useSwap (lower_bound_right lessR b k).2
  | ubR {b : bimap α β} {k : β} : Reach lessL lessR useSwap b →
      Reach lessL lessR useSwap (upper_bound_right lessR b k).2
  | clr {b b' : bimap α β} : Reach lessL lessR useSwap b →
      clear lessL lessR b = some b' →
      Reach lessL lessR useSwap b'
  | mvC1 {o : bimap α β} : Reach lessL lessR useSwap o →
      Reach lessL lessR useSwap (move_construct o).1
  | mvC2 {o : bimap α β} : Reach lessL lessR useSwap o →
      Reach lessL lessR useSwap (move_construct o).2
  | mvA1 {d o : bimap α β} : Reach lessL lessR useSwap d →
      Reach lessL lessR useSwap o →
      Reach lessL lessR useSwap (move_assign d o).1
  | mvA2 {d o : bimap α β} : Reach lessL lessR useSwap d →
      Reach lessL lessR useSwap o →
      Reach lessL lessR useSwap (move_assign d o).2
  | cpC {o : bimap α β} {ps : List (Nat × Nat)} :
      Reach lessL lessR useSwap o →
      Reach lessL lessR useSwap (copy_construct lessL lessR o ps)
  | cpA {d o : bimap α β} {ps : List (Nat × Nat)} {b' : bimap α β} :
      Reach lessL lessR useSwap d →
      Reach lessL lessR useSwap o →
      copy_assign lessL lessR d o ps = some b' →
      Reach lessL lessR useSwap b'
  | swp1 {a b : bimap α β} : useSwap = true →
      Reach lessL lessR useSwap a →
      Reach lessL lessR useSwap b →
      Reach lessL lessR useSwap (swapB a b).1
  | swp2 {a b : bimap α β} : useSwap = true →
      Reach lessL lessR useSwap a →
      Reach lessL lessR useSwap b →
      Reach lessL lessR useSwap (swapB a b).2

section C4Main

variable {α β : Type} (lessL : α → α → Bool) (lessR : β → β → Bool)

/-- Every state reachable without `swap` satisfies the weak well-formedness
invariant (valid BSTs, valid heaps, equal node multisets, size bounding the
count). -/
theorem reach_invW (LL : LawfulLess lessL) (LR : LawfulLess lessR)
    (b : bimap α β) (h : Reach lessL lessR false b) :
    InvW lessL lessR b := by
  induction h with
  | empty => exact invW_empty lessL lessR
  | ins hb ih => exact insert_invW lessL lessR LL LR _ _ _ _ _ ih
  | erL hb he ih => exact erase_left_invW lessL lessR LL LR _ _ _ ih he
  | erR hb he ih => exact erase_right_invW lessL lessR LL LR _ _ _ ih he
  | erLIt hb hn he ih =>
    exact erase_left_at_invW lessL lessR LL LR _ _ ih hn _ he
  | erRIt hb hn he ih =>
    exact erase_right_at_invW lessL lessR LL LR _ _ ih hn _ he
  | atL hb he ih =>
    exact at_left_or_default_invW lessL lessR LL LR _ _ _ _ _ _ ih he
  | atR hb he ih =>
    exact at_right_or_default_invW lessL lessR LL LR _ _ _ _ _ _ ih he
  | lbL hb ih => exact lower_bound_left_invW lessL lessR LL _ _ ih
  | ubL hb ih => exact upper_bound_left_invW lessL lessR LL _ _ ih
  | lbR hb ih => exact lower_bound_right_invW lessL lessR LR _ _ ih
  | ubR hb ih => exact upper_bound_right_invW lessL lessR LR _ _ ih
  | clr hb he ih => exact clear_go_invW lessL lessR LL LR _ _ _ ih he
  | mvC1 ho ih => exact ⟨ih.1, ih.2.1, ih.2.2.1, ih.2.2.2.1,
      ih.2.2.2.2.1, ih.2.2.2.2.2⟩
  | mvC2 ho ih => exact ⟨rfl, rfl, rfl, rfl, List.Perm.refl _,
      Nat.zero_le _⟩
  | mvA1 hd ho ihd iho =>
    rename_i d o
    by_cases h0 : o.sz = 0
    · rw [move_assign, if_pos h0]
      exact ihd
    · rw [move_assign, if_neg h0]
      exact ⟨iho.1, iho.2.1, iho.2.2.1, iho.2.2.2.1, iho.2.2.2.2.1,
        iho.2.2.2.2.2⟩
  | mvA2 hd ho ihd iho =>
    rename_i d o
    by_cases h0 : o.sz = 0
    · rw [move_assign, if_pos h0]
      exact iho
    · rw [move_assign, if_neg h0]
      exact ⟨rfl, rfl, rfl, rfl, List.Perm.refl _, Nat.zero_le _⟩
  | cpC ho ih =>
    exact build_from_invW lessL lessR LL LR _ _ _ (invW_empty lessL lessR)
  | cpA hd ho he ihd iho =>
    rename_i d o ps b'
    rw [copy_assign] at he
    by_cases h0 : o.sz = 0
    · rw [if_pos h0, Option.some.injEq] at he
      rw [← he]
      exact ihd
    · rw [if_neg h0] at he
      cases hc : clear lessL lessR d with
      | none => rw [hc] at he; cases he
      | some c =>
        rw [hc, Option.some.injEq] at he
        rw [← he]
        exact build_from_invW lessL lessR LL LR _ _ _
          (clear_go_invW lessL lessR LL LR _ _ _ ihd hc)
  | swp1 hflag _ _ _ _ => cases hflag
  | swp2 hflag _ _ _ _ => cases hflag

/-- C4 is refuted as stated: with `swap` among the facade operations, a
state violating strict key increase is reachable.  `swap` exchanges the two
trees but not `_size`; swapping a one-pair container with an empty one
leaves the formerly-empty container with the pair but `_size == 0`, so
`empty()` is true and the next `insert` skips the uniqueness check — after
`insert(1, 2)` the left tree holds two nodes with L-key 1 and its in-order
key sequence [1, 1] is not strictly increasing. -/
theorem C4_counterexample_swap_insert_duplicate :
    Reach natLt natLt true
      (insert natLt natLt
        (swapB (insert natLt natLt (⟨0, .leaf, .leaf⟩ : bimap Nat Nat)
                  1 1 1 1).2
               (⟨0, .leaf, .leaf⟩ : bimap Nat Nat)).2 1 2 0 0).2
    ∧ ¬ (((insert natLt natLt
        (swapB (insert natLt natLt (⟨0, .leaf, .leaf⟩ : bimap Nat Nat)
                  1 1 1 1).2
               (⟨0, .leaf, .leaf⟩ : bimap Nat Nat)).2 1 2 0 0).2).lt.inorder.map
          DNode.l).Pairwise (fun a c => natLt a c = true) := by
  constructor
  · exact Reach.ins (Reach.swp2 rfl (Reach.ins Reach.empty) Reach.empty)
  · have h1 : (insert natLt natLt (⟨0, .leaf, .leaf⟩ : bimap Nat Nat)
        1 1 1 1).2
        = ⟨1, Tree.node .leaf ⟨1, 1, 1, 1⟩ .leaf,
           Tree.node .leaf ⟨1, 1, 1, 1⟩ .leaf⟩ := by
      simp [insert, find_left, find_right, exist, insertT, split, merge]
    rw [h1]
    have h2 : ((insert natLt natLt
        (swapB (⟨1, Tree.node .leaf ⟨1, 1, 1, 1⟩ .leaf,
                 Tree.node .leaf ⟨1, 1, 1, 1⟩ .leaf⟩ : bimap Nat Nat)
               ⟨0, .leaf, .leaf⟩).2 1 2 0 0).2).lt.inorder.map DNode.l
        = [1, 1] := by
      simp [swapB, insert, find_left, find_right, exist, insertT, split,
        merge, natLt, Tree.inorder]
    rw [h2]
    decide

/-- C4 (amended): for every container state reachable by any sequence of
facade operations other than `swap`, the in-order L-side node sequence is
strictly increasing under the L-ordering (so no two live pairs have
comparator-equal L-keys), the R side likewise, and each tree is a valid
binary search tree by its side's key and a max-heap by its nodes' random
priorities.  (As stated — with `swap` included — the claim fails, because
`swap` does not exchange `_size` and a later `insert` can then bypass the
uniqueness check; see the counterexample theorem.) -/
theorem C4_reachable_invariants_no_swap {α β : Type}
    (lessL : α → α → Bool) (lessR : β → β → Bool)
    (LL : LawfulLess lessL) (LR : LawfulLess lessR)
    (b : bimap α β) (h : Reach lessL lessR false b) :
    (b.lt.inorder.map DNode.l).Pairwise (fun a c => lessL a c = true)
    ∧ (b.rt.inorder.map DNode.r).Pairwise (fun a c => lessR a c = true)
    ∧ bst DNode.l lessL b.lt = true ∧ heapOk DNode.pl b.lt = true
    ∧ bst DNode.r lessR b.rt = true ∧ heapOk DNode.pr b.rt = true := by
  obtain ⟨h1, h2, h3, h4, -, -⟩ := reach_invW lessL lessR LL LR b h
  refine ⟨?_, ?_, h1, h2, h3, h4⟩
  · exact (bst_pairwise DNode.l lessL LL b.lt h1).map _
      (fun a c hac => hac)
  · exact (bst_pairwise DNode.r lessR LR b.rt h3).map _
      (fun a c hac => hac)

theorem C4_reachable_invariants_no_swap_witness :
    LawfulLess natLt ∧
    Reach natLt natLt false
      (insert natLt natLt (⟨0, .leaf, .leaf⟩ : bimap Nat Nat) 1 2 0 0).2 ∧
    ((((insert natLt natLt (⟨0, .leaf, .leaf⟩ : bimap Nat Nat)
        1 2 0 0).2).lt.inorder.map DNode.l).Pairwise
          (fun a c => natLt a c = true)
    ∧ ((((insert natLt natLt (⟨0, .leaf, .leaf⟩ : bimap Nat Nat)
        1 2 0 0).2).rt.inorder.map DNode.r).Pairwise
          (fun a c => natLt a c = true))
    ∧ bst DNode.l natLt
        ((insert natLt natLt (⟨0, .leaf, .leaf⟩ : bimap Nat Nat)
          1 2 0 0).2).lt = true
    ∧ heapOk DNode.pl
        ((insert natLt natLt (⟨0, .leaf, .leaf⟩ : bimap Nat Nat)
          1 2 0 0).2).lt = true
    ∧ bst DNode.r natLt
        ((insert natLt natLt (⟨0, .leaf, .leaf⟩ : bimap Nat Nat)
          1 2 0 0).2).rt = true
    ∧ heapOk DNode.pr
        ((insert natLt natLt (⟨0, .leaf, .leaf⟩ : bimap Nat Nat)
          1 2 0 0).2).rt = true) :=
  ⟨lawful_natLt, Reach.ins Reach.empty,
   C4_reachable_invariants_no_swap natLt natLt lawful_natLt lawful_natLt
     _ (Reach.ins Reach.empty)⟩

end C4Main

end BimapSpec
